import Mathlib

/-!
# tf-idf ranking (`ranking.go`): a shallow embedding and its verified properties

The Go program keeps three process-wide maps (`TermMap`, `TermInDocsMap`,
`DocWordCount`) and a fixed array `docids`.  The embedding passes them explicitly.

Modelling conventions

* A Go `map[K]V` is an association list with first-match lookup (`mapGet`) and
  replace-or-append update (`mapSet`).  Go leaves the visiting order of `range`
  unspecified; the model visits entries in list order and the theorems compare
  tables by lookup and rows by membership, never by position.
* A `*int` held in a map is modelled by the integer cell it points to: every
  pointer stored by the program comes from its own `new(int)`, so cells are
  never shared, and a missing key stands for the `nil` pointer.
* Go `int` counters are modelled by `Int`; each counter is bounded by the
  number of tokens read, far below `2^63`.
* A Go string is modelled by a Lean `String` (a sequence of Unicode runes).  `path.Base`
  and `path.Clean` work on bytes; `/` and `.` are ASCII and never part of a longer
  encoding, so working on runes gives the same result.  The Unicode case table that
  `strings.ToLower` applies to non-ASCII runes is a parameter, `caseTable`.
* `float64` arithmetic is abstracted by a type `F` with the field operations
  and a `Log10` function; theorems about scores take `F := ℝ` and
  `Log10 := Real.logb 10`.
* File input is the list of words that `bufio.ScanWords` yields for a document;
  file output is the list of rows written.
-/

set_option linter.unusedVariables false

namespace Ranking

/-! ## Go maps -/

/-- Lookup `m[k]`; `none` is the zero value (`nil`) returned for a missing key. -/
def mapGet {κ ν : Type} [DecidableEq κ] : List (κ × ν) → κ → Option ν
  | [], _ => none
  | (k', v) :: rest, k => if k' = k then some v else mapGet rest k

/-- Assignment `m[k] = v`: replaces the value of an existing key, else adds the key. -/
def mapSet {κ ν : Type} [DecidableEq κ] : List (κ × ν) → κ → ν → List (κ × ν)
  | [], k, v => [(k, v)]
  | (k', v') :: rest, k, v =>
    if k' = k then (k, v) :: rest else (k', v') :: mapSet rest k v

/-- Key list of a map. -/
def mapKeys {κ ν : Type} (m : List (κ × ν)) : List κ := m.map Prod.fst

/-- Inner mapping of the index: docid to raw count. -/
abbrev DocCounts := List (Int × Int)

/-- Type of the global `TermMap`: term to (docid to raw count). -/
abbrev TermMap := List (String × DocCounts)

/-- Type of the global `TermInDocsMap`: term to number of docs. -/
abbrev TermInDocsMap := List (String × Int)

/-- Type of the global `DocWordCount`: docid to words in doc. -/
abbrev DocWordCount := List (Int × Int)

/-- The array `docids` as `main` fills it. -/
def docids : List Int := [1, 2, 3, 4, 5]

/-! ## The Go library functions used by `clean_term`

These are models of standard-library functions, written after the library's documented
behaviour on the runes of a string. -/

namespace unicode

/-- Go `unicode.ToLower` on one rune.  ASCII runes take the library's fast path; every other
rune goes through the Unicode case table, which is the parameter `caseTable`. -/
def ToLower (caseTable : Char → Char) (r : Char) : Char :=
  if r.toNat ≤ 127 then
    (if 'A' ≤ r ∧ r ≤ 'Z' then Char.ofNat (r.toNat + 32) else r)
  else caseTable r

end unicode

namespace strings

/-- Go `strings.ToLower`: every rune mapped to lower case. -/
def ToLower (caseTable : Char → Char) (s : List Char) : List Char :=
  s.map (unicode.ToLower caseTable)

/-- Go `strings.TrimLeft(s, cutset)`. -/
def TrimLeft (s cutset : List Char) : List Char :=
  s.dropWhile (fun c => decide (c ∈ cutset))

/-- Go `strings.TrimRight(s, cutset)`. -/
def TrimRight (s cutset : List Char) : List Char :=
  (s.reverse.dropWhile (fun c => decide (c ∈ cutset))).reverse

/-- Go `strings.Trim(s, cutset)`. -/
def Trim (s cutset : List Char) : List Char :=
  TrimRight (TrimLeft s cutset) cutset

/-- Go `strings.TrimSuffix(s, suffix)`. -/
def TrimSuffix (s suffix : List Char) : List Char :=
  if suffix.isSuffixOf s then s.take (s.length - suffix.length) else s

/-- Go `strings.Replace(s, "--", "-", -1)`: the non-overlapping occurrences of `--`, found left
to right, each become one `-`. -/
def ReplaceDoubleDash : List Char → List Char
  | [] => []
  | [c] => [c]
  | c :: d :: rest =>
    if c = '-' ∧ d = '-' then '-' :: ReplaceDoubleDash rest
    else c :: ReplaceDoubleDash (d :: rest)

end strings

namespace regexp

/-- Go `ReplaceAllString` for a pattern that is a single character class `cls`: every rune of
the class is replaced by `repl`. -/
def ReplaceAllString (cls : Char → Bool) (src repl : List Char) : List Char :=
  match src with
  | [] => []
  | c :: rest =>
    if cls c then repl ++ ReplaceAllString cls rest repl
    else c :: ReplaceAllString cls rest repl

/-- The class `[ &_=+:]`. -/
def seps (c : Char) : Bool :=
  c = ' ' || c = '&' || c = '_' || c = '=' || c = '+' || c = ':'

/-- POSIX class `[[:alnum:]]`, ASCII only in Go's regexp syntax. -/
def alnum (c : Char) : Bool :=
  ('0' ≤ c && c ≤ '9') || ('A' ≤ c && c ≤ 'Z') || ('a' ≤ c && c ≤ 'z')

/-- The class `[^[:alnum:]-]`. -/
def legal (c : Char) : Bool :=
  !(alnum c || c = '-')

end regexp

namespace path

/-- Go `path.Base`. -/
def Base (p : List Char) : List Char :=
  if p = [] then ['.']
  else
    -- strip trailing slashes
    let p1 := (p.reverse.dropWhile (fun c => decide (c = '/'))).reverse
    -- keep what follows the last slash
    let p2 := (p1.reverse.takeWhile (fun c => decide (c ≠ '/'))).reverse
    if p2 = [] then ['/'] else p2

/-- Position of the scanner of `path.Clean`: at the start of a path element, inside the copy
loop of a real element, or on the second dot of a `..` element. -/
inductive Mode
  | start
  | copy
  | skip
  deriving DecidableEq

/-- Backtracking of `path.Clean` on a `..` element, from write index `w`: move left while
`w > dotdot` and the byte at `w` is not a slash. -/
def backtrack (buf : List Char) (dotdot : Nat) : Nat → Nat
  | 0 => 0
  | w + 1 =>
    if w + 1 > dotdot ∧ buf.getD (w + 1) '/' ≠ '/' then backtrack buf dotdot w else w + 1

/-- Main loop of Go `path.Clean`: `out` is the written prefix of the lazy buffer, `dotdot` the
index where `..` must stop. -/
def cleanLoop (rooted : Bool) : List Char → Mode → List Char → Nat → List Char
  | [], _, out, _ => out
  | c :: rest, Mode.copy, out, dotdot =>
    if c = '/' then cleanLoop rooted rest Mode.start out dotdot
    else cleanLoop rooted rest Mode.copy (out ++ [c]) dotdot
  | _ :: rest, Mode.skip, out, dotdot => cleanLoop rooted rest Mode.start out dotdot
  | c :: rest, Mode.start, out, dotdot =>
    if c = '/' then
      -- empty path element
      cleanLoop rooted rest Mode.start out dotdot
    else if c = '.' ∧ (rest = [] ∨ rest.head? = some '/') then
      -- . element
      cleanLoop rooted rest Mode.start out dotdot
    else if c = '.' ∧ rest.head? = some '.' ∧ (rest.tail = [] ∨ rest.tail.head? = some '/') then
      -- .. element
      if out.length > dotdot then
        cleanLoop rooted rest Mode.skip (out.take (backtrack out dotdot (out.length - 1))) dotdot
      else if !rooted then
        let out1 := (if out.length > 0 then out ++ ['/'] else out) ++ ['.', '.']
        cleanLoop rooted rest Mode.skip out1 out1.length
      else cleanLoop rooted rest Mode.skip out dotdot
    else
      -- real path element: add a slash if needed, then copy the element
      let out1 :=
        if (rooted && out.length != 1) || (!rooted && out.length != 0) then out ++ ['/'] else out
      cleanLoop rooted rest Mode.copy (out1 ++ [c]) dotdot

/-- Go `path.Clean`. -/
def Clean (p : List Char) : List Char :=
  if p = [] then ['.']
  else
    let rooted : Bool := decide (p.head? = some '/')
    let out :=
      if rooted then cleanLoop rooted p.tail Mode.start ['/'] 1
      else cleanLoop rooted p Mode.start [] 0
    if out = [] then ['.'] else out

end path

/-! ## Term normalisation -/

/-- Source `clean_term`.  The three `strings.TrimSuffix` statements of the source assign to
the parameter `term`, which is not read afterwards; the result comes from `name` alone. -/
def clean_term (caseTable : Char → Char) (term : String) : String :=
  let name := strings.ToLower caseTable term.toList
  let name := path.Clean (path.Base name)
  let name := strings.Trim name [' ']
  -- remove the plural s (oversimplification)
  let term1 := strings.TrimSuffix term.toList "'s".toList
  let term2 := strings.TrimSuffix term1 ['s']
  -- Replace certain joining characters with a dash
  let name := regexp.ReplaceAllString regexp.seps name ['-']
  -- Remove all other unrecognised characters
  let name := regexp.ReplaceAllString regexp.legal name []
  -- Remove any double dashes caused by existing - in name
  let name := strings.ReplaceDoubleDash name
  let term3 := strings.TrimSuffix term2 ['-']
  -- Remove trailing comma
  let name2 := name
  let name2 := strings.TrimRight name2 [',']
  String.mk name2

/-- A case table that leaves every rune as it is; it is consulted for non-ASCII runes only. -/
def plainTable : Char → Char := fun r => r

/-! ## The inverted index -/

/-- Source `increment`: `*xPtr += 1`.  The `nil` guard of the source never fires: each call
passes a fresh `new(int)` or a pointer that was just tested against `nil`. -/
def increment (x : Int) : Int := x + 1

/-- Source `add_term`.  Returns the updated `TermMap` and `retval`.  The two `if`
statements of the source run one after the other, as they do there. -/
def add_term (tm : TermMap) (term : String) (docid : Int) : TermMap × Int :=
  -- if TermMap[term] == nil { ... retval = 1 }
  let r : TermMap × Int :=
    match mapGet tm term with
    | none => (mapSet tm term (mapSet [] docid (increment 0)), 1)
    | some _ => (tm, 0)
  -- if TermMap[term][docid] == nil { ... } else { increment }
  let gm : DocCounts := (mapGet r.1 term).getD []
  match mapGet gm docid with
  | none => (mapSet r.1 term (mapSet gm docid (increment 0)), r.2)
  | some tcount => (mapSet r.1 term (mapSet gm docid (increment tcount)), r.2)

/-- Source `add_term_doc_count`. -/
def add_term_doc_count (tid : TermInDocsMap) (term : String) : TermInDocsMap × Int :=
  match mapGet tid term with
  | none => (mapSet tid term (increment 0), 1)
  | some newcount => (mapSet tid term (increment newcount), 0)

/-- Source `sum_of_docs_per_term`: one `add_term_doc_count(term)` per entry of every inner
mapping. -/
def sum_of_docs_per_term (tm : TermMap) (tid : TermInDocsMap) : TermInDocsMap :=
  tm.foldl
    (fun acc entry => entry.2.foldl (fun acc2 _ => (add_term_doc_count acc2 entry.1).1) acc)
    tid

/-- Recorded count `*TermMap[term][docid]`, `none` when the pointer is `nil`. -/
def count (tm : TermMap) (term : String) (docid : Int) : Option Int :=
  (mapGet tm term).bind (fun gm => mapGet gm docid)

/-- A sequence of `add_term(term, docid)` calls, return values dropped. -/
def record (tm : TermMap) (calls : List (String × Int)) : TermMap :=
  calls.foldl (fun acc c => (add_term acc c.1 c.2).1) tm

/-- Source `add_terms_to_dictionary`, on the words `words` that the scanner yields for
`doc<docid>.txt`.  Returns the updated `TermMap` and `DocWordCount`. -/
def add_terms_to_dictionary (caseTable : Char → Char) (words : List String)
    (tm : TermMap) (dwc : DocWordCount) (docid : Int) : TermMap × DocWordCount :=
  let r : TermMap × Int :=
    words.foldl
      (fun (acc : TermMap × Int) (w : String) =>
        -- make lower case
        let term := String.mk (strings.ToLower caseTable w.toList)
        let cterm := clean_term caseTable term
        -- add words to dictionary
        let a := add_term acc.1 cterm docid
        (a.1, acc.2 + a.2))
      (tm, 0)
  -- save the term_count
  (r.1, mapSet dwc docid r.2)

/-! ## Scoring -/

section Scoring

variable {F : Type} [Zero F] [One F] [Add F] [Mul F] [Div F] [IntCast F]

/-- The inner `for doc, tcount := range docmap` loop of `write_tfidf_values`: the final values
of `tf_td` and `score`. -/
def scan_docmap (Log10 : F → F) (N df_t docid : Int) (docmap : DocCounts) : Int × F :=
  docmap.foldl
    (fun (acc : Int × F) (e : Int × Int) =>
      if e.1 = docid then
        (e.2, if df_t > 0 then 1 + Log10 (e.2 : F) * Log10 ((N : F) / (df_t : F)) else acc.2)
      else acc)
    (0, 0)

/-- Source `write_tfidf_values`: the rows written to `doc<docid>.csv`, as (term, score).
`none` stands for the run-time panic of dereferencing a `nil` `TermInDocsMap[term]`. -/
def write_tfidf_values (Log10 : F → F) (tm : TermMap) (tid : TermInDocsMap) (docid : Int) :
    Option (List (String × F)) :=
  let N : Int := docids.length
  match tm with
  | [] => some []
  | (term, docmap) :: rest =>
    match mapGet tid term with
    | none => none
    | some df_t =>
      let r := scan_docmap Log10 N df_t docid docmap
      match write_tfidf_values Log10 rest tid docid with
      | none => none
      | some rows => some (if r.1 > 0 then (term, r.2) :: rows else rows)

/-- First loop of `main`: index the documents `ds` in turn; `files d` holds the words of
`doc<d>.txt`. -/
def index_docs (caseTable : Char → Char) (files : Int → List String) (ds : List Int)
    (tm : TermMap) (dwc : DocWordCount) : TermMap × DocWordCount :=
  ds.foldl (fun acc d => add_terms_to_dictionary caseTable (files d) acc.1 acc.2 d) (tm, dwc)

/-- Second loop of `main`: the rows of every document of `ds`, `none` if a call panics. -/
def write_docs (Log10 : F → F) (tm : TermMap) (tid : TermInDocsMap) :
    List Int → Option (List (Int × List (String × F)))
  | [] => some []
  | d :: ds =>
    match write_tfidf_values Log10 tm tid d with
    | none => none
    | some rows =>
      match write_docs Log10 tm tid ds with
      | none => none
      | some out => some ((d, rows) :: out)

/-- Source `main`: from the words of the five documents to the rows of the five result
files. -/
def main (caseTable : Char → Char) (Log10 : F → F) (files : Int → List String) :
    Option (List (Int × List (String × F))) :=
  let idx := index_docs caseTable files docids [] []
  let tid := sum_of_docs_per_term idx.1 []
  write_docs Log10 idx.1 tid docids

end Scoring

/-- The corpus of the spec's scenario: document 1 is `cat cat dog`, document 2 is
`dog dog dog`, the other documents are empty. -/
def scenario (d : Int) : List String :=
  if d = 1 then ["cat", "cat", "dog"] else if d = 2 then ["dog", "dog", "dog"] else []

/-! ## Definitions used to state the properties -/

/-- Inner mapping of `term` after `add_term(term, docid)`, from the lookups before the call. -/
def innerAfter (tm : TermMap) (term : String) (docid : Int) : DocCounts :=
  match mapGet tm term with
  | none => [(docid, 2)]
  | some gm =>
    match mapGet gm docid with
    | none => mapSet gm docid 1
    | some c => mapSet gm docid (c + 1)

/-- Well-formed index: no term is listed twice, and every inner mapping is non-empty and lists
no document twice. -/
def WF (tm : TermMap) : Prop :=
  (mapKeys tm).Nodup ∧ ∀ e ∈ tm, e.2 ≠ [] ∧ (mapKeys e.2).Nodup

instance decidableWF (tm : TermMap) : Decidable (WF tm) := by
  unfold WF
  infer_instance

/-- The row that `write_tfidf_values(docid)` writes for one entry of `TermMap`, if any. -/
def rowFor {F : Type} [Zero F] [One F] [Add F] [Mul F] [Div F] [IntCast F]
    (Log10 : F → F) (tid : TermInDocsMap) (docid : Int) (e : String × DocCounts) :
    Option (String × F) :=
  match mapGet e.2 docid, mapGet tid e.1 with
  | some tf, some df =>
    if 0 < tf then
      some (e.1, 1 + Log10 (tf : F) * Log10 (((docids.length : Int) : F) / (df : F)))
    else none
  | _, _ => none

/-- The two normalising statements of the loop of `add_terms_to_dictionary`:
`clean_term(strings.ToLower(word))`. -/
def normalize (caseTable : Char → Char) (w : String) : String :=
  clean_term caseTable (String.mk (strings.ToLower caseTable w.toList))

/-- The `add_term` calls that indexing the documents `ds` makes, in order. -/
def corpus_calls (caseTable : Char → Char) (files : Int → List String) :
    List Int → List (String × Int)
  | [] => []
  | d :: ds => (files d).map (fun w => (normalize caseTable w, d)) ++
      corpus_calls caseTable files ds

/-- Every recorded count is at least 1. -/
def PositiveCounts (tm : TermMap) : Prop :=
  ∀ term docid c, count tm term docid = some c → 1 ≤ c

/-- A corpus in which `cat` occurs exactly once, in document 1; the other documents are
empty. -/
def single_word_corpus (d : Int) : List String :=
  if d = 1 then ["cat"] else []

/-- Number of calls `add_term(term, docid)` in a sequence of calls. -/
def occurrences (calls : List (String × Int)) (term : String) (docid : Int) : Nat :=
  calls.count (term, docid)

/-- Document named by the first call for `term` in a sequence of calls. -/
def firstDoc (calls : List (String × Int)) (term : String) : Option Int :=
  (calls.find? (fun c => decide (c.1 = term))).map Prod.snd

/-- ASCII upper-case letter. -/
def isUpperAscii (c : Char) : Prop := 'A' ≤ c ∧ c ≤ 'Z'

/-- Removable rune: neither alphanumeric (as it stands or once lower-cased), nor a hyphen, nor
one of the separators space, `&`, `_`, `=`, `+`, `:`.  For an ASCII rune the lower-case clause
adds nothing (lemma `removable_ascii_iff`); it makes a capital letter outside ASCII whose lower
case is an ASCII letter (in Unicode: U+0130 and U+212A, lower case `i` and `k`) count as
alphanumeric, like the ASCII capitals. -/
def removable (caseTable : Char → Char) (c : Char) : Prop :=
  regexp.alnum c = false ∧ regexp.alnum (unicode.ToLower caseTable c) = false ∧
    c ≠ '-' ∧ regexp.seps c = false

instance decidableRemovable (caseTable : Char → Char) (c : Char) :
    Decidable (removable caseTable c) := by
  unfold removable
  infer_instance

/-! ## Evaluations on small inputs -/

example : clean_term plainTable "Cats" = "cats" := by decide
example : clean_term plainTable "a/b/Hello,_World's--x---y." = "hello-worlds-x--y" := by decide
example : clean_term plainTable "" = "" := by decide
example : clean_term plainTable "///" = "" := by decide
example : clean_term plainTable ".." = "" := by decide
example : path.Clean "/a/./b/../../c/".toList = "/c".toList := by decide
example : path.Clean "a/../../b//c/..".toList = "../b".toList := by decide
example : path.Clean "/../a".toList = "/a".toList := by decide
example : path.Clean "abc/def/../..".toList = ".".toList := by decide
example : path.Base "/a/b//".toList = "b".toList := by decide
example : add_term [] "cat" 1 = ([("cat", [(1, 2)])], 1) := by decide
example : record [] [("cat", 1), ("cat", 1), ("dog", 1), ("dog", 2), ("dog", 2), ("dog", 2)]
    = [("cat", [(1, 3)]), ("dog", [(1, 2), (2, 3)])] := by decide
example : sum_of_docs_per_term [("cat", [(1, 3)]), ("dog", [(1, 2), (2, 3)])] []
    = [("cat", 1), ("dog", 2)] := by decide
example : index_docs plainTable scenario docids [] []
    = ([("cat", [(1, 3)]), ("dog", [(1, 2), (2, 3)])], [(1, 2), (2, 0), (3, 0), (4, 0), (5, 0)]) := by
  decide
example : write_tfidf_values (fun q : ℚ => q) [("cat", [(1, 3)]), ("dog", [(1, 2), (2, 3)])]
    [("cat", 1), ("dog", 2)] 1 = some [("cat", 1 + 3 * (5 / 1)), ("dog", 1 + 2 * (5 / 2))] := by
  simp [write_tfidf_values, scan_docmap, mapGet, docids]

/-! ## Lemmas on maps -/

theorem mapGet_mapSet {κ ν : Type} [DecidableEq κ] (m : List (κ × ν)) (k k' : κ) (v : ν) :
    mapGet (mapSet m k v) k' = if k = k' then some v else mapGet m k' := by
  induction m with
  | nil => simp [mapSet, mapGet]
  | cons e rest ih =>
    obtain ⟨k0, v0⟩ := e
    by_cases h0 : k0 = k
    · subst h0
      by_cases h1 : k0 = k' <;> simp [mapSet, mapGet, h1]
    · by_cases h1 : k0 = k'
      · subst h1
        have : ¬ k = k0 := fun h => h0 h.symm
        simp [mapSet, mapGet, h0, this]
      · simp [mapSet, mapGet, h0, h1, ih]

theorem mapGet_mapSet_self {κ ν : Type} [DecidableEq κ] (m : List (κ × ν)) (k : κ) (v : ν) :
    mapGet (mapSet m k v) k = some v := by
  simp [mapGet_mapSet]

theorem mapGet_mapSet_ne {κ ν : Type} [DecidableEq κ] (m : List (κ × ν)) (k k' : κ) (v : ν)
    (h : k ≠ k') : mapGet (mapSet m k v) k' = mapGet m k' := by
  simp [mapGet_mapSet, h]

theorem mapGet_eq_none_iff {κ ν : Type} [DecidableEq κ] (m : List (κ × ν)) (k : κ) :
    mapGet m k = none ↔ k ∉ mapKeys m := by
  induction m with
  | nil => simp [mapGet, mapKeys]
  | cons e rest ih =>
    obtain ⟨k0, v0⟩ := e
    by_cases h0 : k0 = k
    · simp [mapGet, mapKeys, h0]
    · have h1 : ¬ k = k0 := fun h => h0 h.symm
      simp only [mapKeys] at ih
      simp [mapGet, mapKeys, h0, h1, ih]

theorem mapKeys_mapSet {κ ν : Type} [DecidableEq κ] (m : List (κ × ν)) (k : κ) (v : ν) :
    mapKeys (mapSet m k v) = if k ∈ mapKeys m then mapKeys m else mapKeys m ++ [k] := by
  induction m with
  | nil => simp [mapSet, mapKeys]
  | cons e rest ih =>
    obtain ⟨k0, v0⟩ := e
    simp only [mapKeys] at ih
    by_cases h0 : k0 = k
    · simp [mapSet, mapKeys, h0]
    · have h1 : ¬ k = k0 := fun h => h0 h.symm
      by_cases h2 : k ∈ List.map Prod.fst rest
      · simp [mapSet, mapKeys, h0, h1, h2, ih]
      · simp [mapSet, mapKeys, h0, h1, h2, ih]

theorem mapGet_mem {κ ν : Type} [DecidableEq κ] (m : List (κ × ν)) (k : κ) (v : ν)
    (h : mapGet m k = some v) : (k, v) ∈ m := by
  induction m with
  | nil => simp [mapGet] at h
  | cons e rest ih =>
    obtain ⟨k0, v0⟩ := e
    by_cases h0 : k0 = k
    · simp [mapGet, h0] at h
      simp [h0, h]
    · simp [mapGet, h0] at h
      exact List.mem_cons_of_mem _ (ih h)

theorem mapGet_of_mem {κ ν : Type} [DecidableEq κ] (m : List (κ × ν)) (k : κ) (v : ν)
    (hnd : (mapKeys m).Nodup) (h : (k, v) ∈ m) : mapGet m k = some v := by
  induction m with
  | nil => simp at h
  | cons e rest ih =>
    obtain ⟨k0, v0⟩ := e
    simp only [mapKeys, List.map_cons, List.nodup_cons] at hnd
    rcases List.mem_cons.1 h with h1 | h1
    · cases h1
      simp [mapGet]
    · have hk : k0 ≠ k := by
        intro hk
        apply hnd.1
        subst hk
        exact List.mem_map_of_mem Prod.fst h1
      simp only [mapGet, hk, if_false]
      exact ih hnd.2 h1

/-! ## Lemmas on `add_term` -/

theorem add_term_fst (tm : TermMap) (term : String) (docid : Int) :
    (add_term tm term docid).1 = mapSet tm term (innerAfter tm term docid) := by
  unfold add_term innerAfter
  cases h : mapGet tm term with
  | none =>
    simp only [mapGet_mapSet_self, Option.getD_some]
    simp [mapSet, mapGet, increment]
    induction tm with
    | nil => simp [mapSet]
    | cons e rest ih =>
      obtain ⟨k0, v0⟩ := e
      by_cases h0 : k0 = term
      · simp [mapGet, h0] at h
      · simp only [mapGet, h0, if_false] at h
        simp [mapSet, h0, ih h]
  | some gm =>
    simp only [h, Option.getD_some]
    cases h2 : mapGet gm docid <;> simp [increment]

theorem add_term_snd (tm : TermMap) (term : String) (docid : Int) :
    (add_term tm term docid).2 = if mapGet tm term = none then 1 else 0 := by
  unfold add_term
  cases h : mapGet tm term with
  | none =>
    simp only [mapGet_mapSet_self, Option.getD_some]
    simp [mapSet, mapGet]
  | some gm =>
    simp only [h, Option.getD_some]
    cases h2 : mapGet gm docid <;> simp

theorem count_add_term (tm : TermMap) (term : String) (docid : Int) (term' : String)
    (docid' : Int) :
    count (add_term tm term docid).1 term' docid' =
      if term = term' ∧ docid = docid' then
        (match count tm term docid with
          | none => if mapGet tm term = none then some 2 else some 1
          | some c => some (c + 1))
      else count tm term' docid' := by
  rw [add_term_fst]
  unfold count
  rw [mapGet_mapSet]
  by_cases ht : term = term'
  · subst ht
    simp only [if_true, true_and, Option.bind_some]
    unfold innerAfter
    cases h : mapGet tm term with
    | none =>
      by_cases hd : docid = docid'
      · simp [mapGet, hd]
      · simp [mapGet, hd]
    | some gm =>
      simp only [Option.bind_some]
      cases h2 : mapGet gm docid with
      | none =>
        by_cases hd : docid = docid'
        · subst hd
          simp [mapGet_mapSet, h2]
        · simp [mapGet_mapSet, hd]
      | some c =>
        by_cases hd : docid = docid'
        · subst hd
          simp [mapGet_mapSet, h2]
        · simp [mapGet_mapSet, hd]
  · simp [ht]

theorem add_term_new_term (tm : TermMap) (term : String) (docid : Int)
    (h : mapGet tm term = none) :
    mapGet (add_term tm term docid).1 term = some [(docid, 2)] := by
  rw [add_term_fst, mapGet_mapSet_self]
  simp [innerAfter, h]

/-- C1 (code at the failing input): on the empty index `add_term("cat", 1)` leaves the inner
mapping of `cat` equal to `{1: 2}`, not `{1: 1}`: the second `if` of `add_term` increments the
counter that the first one has just set to 1. -/
theorem add_term_first_occurrence_records_two :
    add_term [] "cat" 1 = ([("cat", [(1, 2)])], 1) ∧
      mapGet (add_term [] "cat" 1).1 "cat" ≠ some [(1, 1)] := by
  decide

/-- C2 (code at the failing input): indexing the scenario corpus (document 1 `cat cat dog`,
document 2 `dog dog dog`) gives cat→{1:3}, dog→{1:2, 2:3}: the count of the document in which
a term is first seen is one more than its number of tokens there. -/
theorem index_scenario_counts :
    (index_docs plainTable scenario docids [] []).1
      = [("cat", [(1, 3)]), ("dog", [(1, 2), (2, 3)])] ∧
    count (index_docs plainTable scenario docids [] []).1 "cat" 1 ≠ some 2 ∧
    count (index_docs plainTable scenario docids [] []).1 "dog" 1 ≠ some 1 := by
  decide

/-- C3: when `term` is already present, `add_term(term, doc)` returns 0, sets the count of
(term, doc) to 1 if there was none and to the previous count plus 1 otherwise, and leaves the
inner mapping of every other term and the count of every other pair unchanged. -/
theorem add_term_present_term (tm : TermMap) (term : String) (doc : Int)
    (h : mapGet tm term ≠ none) :
    (add_term tm term doc).2 = 0 ∧
      count (add_term tm term doc).1 term doc =
        (match count tm term doc with
          | none => some 1
          | some c => some (c + 1)) ∧
      (∀ term', term' ≠ term → mapGet (add_term tm term doc).1 term' = mapGet tm term') ∧
      (∀ term' doc', (term', doc') ≠ (term, doc) →
        count (add_term tm term doc).1 term' doc' = count tm term' doc') := by
  refine ⟨?_, ?_, ?_, ?_⟩
  · rw [add_term_snd]; simp [h]
  · rw [count_add_term]
    simp only [and_self, if_true]
    cases hc : count tm term doc <;> simp [h]
  · intro term' hne
    rw [add_term_fst, mapGet_mapSet_ne]
    exact fun e => hne e.symm
  · intro term' doc' hne
    rw [count_add_term]
    have : ¬ (term = term' ∧ doc = doc') := by
      rintro ⟨rfl, rfl⟩
      exact hne rfl
    simp [this]

theorem add_term_present_term_witness :
    mapGet ([("dog", [(1, 2)])] : TermMap) "dog" ≠ none ∧
      (add_term [("dog", [(1, 2)])] "dog" 2).2 = 0 ∧
      count (add_term [("dog", [(1, 2)])] "dog" 2).1 "dog" 2 =
        (match count [("dog", [(1, 2)])] "dog" 2 with
          | none => some 1
          | some c => some (c + 1)) ∧
      (∀ term', term' ≠ "dog" →
        mapGet (add_term [("dog", [(1, 2)])] "dog" 2).1 term' = mapGet [("dog", [(1, 2)])] term') ∧
      (∀ term' doc', (term', doc') ≠ ("dog", (2 : Int)) →
        count (add_term [("dog", [(1, 2)])] "dog" 2).1 term' doc'
          = count [("dog", [(1, 2)])] term' doc') :=
  ⟨by decide, add_term_present_term [("dog", [(1, 2)])] "dog" 2 (by decide)⟩

/-! ## Invariants of the index -/

theorem mapSet_ne_nil {κ ν : Type} [DecidableEq κ] (m : List (κ × ν)) (k : κ) (v : ν) :
    mapSet m k v ≠ [] := by
  cases m with
  | nil => simp [mapSet]
  | cons e rest =>
    obtain ⟨k0, v0⟩ := e
    by_cases h0 : k0 = k <;> simp [mapSet, h0]

theorem mapKeys_mapSet_nodup {κ ν : Type} [DecidableEq κ] (m : List (κ × ν)) (k : κ) (v : ν)
    (h : (mapKeys m).Nodup) : (mapKeys (mapSet m k v)).Nodup := by
  rw [mapKeys_mapSet]
  by_cases hk : k ∈ mapKeys m
  · simpa [hk] using h
  · simp only [hk, if_false]
    rw [List.nodup_append]
    refine ⟨h, List.nodup_singleton k, ?_⟩
    intro a ha hb
    simp only [List.mem_singleton] at hb
    subst hb
    exact hk ha

theorem mem_mapSet {κ ν : Type} [DecidableEq κ] (m : List (κ × ν)) (k : κ) (v : ν)
    (e : κ × ν) (h : e ∈ mapSet m k v) : e = (k, v) ∨ e ∈ m := by
  induction m with
  | nil =>
    simp [mapSet] at h
    exact Or.inl h
  | cons e0 rest ih =>
    obtain ⟨k0, v0⟩ := e0
    by_cases h0 : k0 = k
    · simp only [mapSet, h0, if_true, List.mem_cons] at h
      rcases h with h | h
      · exact Or.inl h
      · exact Or.inr (List.mem_cons_of_mem _ h)
    · simp only [mapSet, h0, if_false, List.mem_cons] at h
      rcases h with h | h
      · exact Or.inr (by simp [h])
      · rcases ih h with h1 | h1
        · exact Or.inl h1
        · exact Or.inr (List.mem_cons_of_mem _ h1)

theorem innerAfter_ne_nil (tm : TermMap) (term : String) (docid : Int) :
    innerAfter tm term docid ≠ [] := by
  cases h : mapGet tm term with
  | none => simp [innerAfter, h]
  | some gm =>
    cases h2 : mapGet gm docid with
    | none =>
      simp only [innerAfter, h, h2]
      exact mapSet_ne_nil _ _ _
    | some c =>
      simp only [innerAfter, h, h2]
      exact mapSet_ne_nil _ _ _

theorem innerAfter_nodup (tm : TermMap) (term : String) (docid : Int)
    (h : ∀ e ∈ tm, (mapKeys e.2).Nodup) : (mapKeys (innerAfter tm term docid)).Nodup := by
  cases h1 : mapGet tm term with
  | none => simp [innerAfter, h1, mapKeys]
  | some gm =>
    have hg : (mapKeys gm).Nodup := h (term, gm) (mapGet_mem _ _ _ h1)
    cases h2 : mapGet gm docid with
    | none =>
      simp only [innerAfter, h1, h2]
      exact mapKeys_mapSet_nodup _ _ _ hg
    | some c =>
      simp only [innerAfter, h1, h2]
      exact mapKeys_mapSet_nodup _ _ _ hg

theorem add_term_WF (tm : TermMap) (term : String) (docid : Int) (h : WF tm) :
    WF (add_term tm term docid).1 := by
  rw [add_term_fst]
  refine ⟨mapKeys_mapSet_nodup _ _ _ h.1, ?_⟩
  intro e he
  rcases mem_mapSet _ _ _ _ he with he | he
  · subst he
    exact ⟨innerAfter_ne_nil _ _ _, innerAfter_nodup _ _ _ (fun e he => (h.2 e he).2)⟩
  · exact h.2 e he

theorem record_WF (calls : List (String × Int)) (tm : TermMap) (h : WF tm) :
    WF (record tm calls) := by
  induction calls generalizing tm with
  | nil => simpa [record] using h
  | cons c rest ih =>
    simp only [record, List.foldl_cons]
    exact ih _ (add_term_WF _ _ _ h)

theorem WF_nil : WF [] := by
  simp [WF, mapKeys]

/-! ## The document-frequency table -/

theorem mapGet_add_term_doc_count (tid : TermInDocsMap) (term term' : String) :
    mapGet (add_term_doc_count tid term).1 term' =
      if term = term' then some ((mapGet tid term).getD 0 + 1) else mapGet tid term' := by
  unfold add_term_doc_count
  cases h : mapGet tid term <;> simp [mapGet_mapSet, increment]

theorem mapGet_foldl_add_term_doc_count {α : Type} (l : List α) (tid : TermInDocsMap)
    (term term' : String) :
    mapGet (l.foldl (fun acc2 _ => (add_term_doc_count acc2 term).1) tid) term' =
      if term = term' ∧ 0 < l.length then some ((mapGet tid term).getD 0 + (l.length : Int))
      else mapGet tid term' := by
  induction l generalizing tid with
  | nil => simp
  | cons a rest ih =>
    simp only [List.foldl_cons]
    rw [ih]
    by_cases ht : term = term'
    · subst ht
      cases rest with
      | nil => simp [mapGet_add_term_doc_count]
      | cons b rest2 =>
        simp only [mapGet_add_term_doc_count, if_true, Option.getD_some, List.length_cons]
        simp
        ring
    · simp [ht, mapGet_add_term_doc_count]

theorem mapGet_sum_of_docs_per_term (tm : TermMap) (tid : TermInDocsMap) (term : String)
    (hnd : (mapKeys tm).Nodup) :
    mapGet (sum_of_docs_per_term tm tid) term =
      match mapGet tm term with
      | none => mapGet tid term
      | some gm =>
        if 0 < gm.length then some ((mapGet tid term).getD 0 + (gm.length : Int))
        else mapGet tid term := by
  induction tm generalizing tid with
  | nil => simp [sum_of_docs_per_term, mapGet]
  | cons e rest ih =>
    obtain ⟨k0, gm0⟩ := e
    simp only [mapKeys, List.map_cons, List.nodup_cons] at hnd
    have hstep : sum_of_docs_per_term ((k0, gm0) :: rest) tid =
        sum_of_docs_per_term rest
          (gm0.foldl (fun acc2 _ => (add_term_doc_count acc2 k0).1) tid) := by
      simp [sum_of_docs_per_term]
    rw [hstep, ih _ hnd.2]
    by_cases hk : k0 = term
    · subst hk
      have hnone : mapGet rest k0 = none := (mapGet_eq_none_iff rest k0).2 hnd.1
      simp only [hnone, mapGet, if_true]
      rw [mapGet_foldl_add_term_doc_count]
      simp
    · simp only [mapGet, hk, if_false]
      cases hr : mapGet rest term with
      | none =>
        simp only
        rw [mapGet_foldl_add_term_doc_count]
        simp [hk]
      | some gm =>
        simp only
        rw [mapGet_foldl_add_term_doc_count]
        simp [hk]

/-- C4: for an index built from the empty index by `add_term` calls, `sum_of_docs_per_term`
run on an empty `TermInDocsMap` gives a table that has an entry for a term exactly when the
index has one, and the value is the number of distinct document ids of the term's inner
mapping, which is the size of that mapping. -/
theorem sum_of_docs_per_term_counts_documents (calls : List (String × Int)) (term : String) :
    mapGet (sum_of_docs_per_term (record [] calls) []) term =
        (mapGet (record [] calls) term).map (fun gm => ((mapKeys gm).toFinset.card : Int)) ∧
      ∀ gm, mapGet (record [] calls) term = some gm → (mapKeys gm).toFinset.card = gm.length := by
  have hwf : WF (record [] calls) := record_WF calls [] WF_nil
  have hsize : ∀ gm, mapGet (record [] calls) term = some gm →
      (mapKeys gm).toFinset.card = gm.length := by
    intro gm hgm
    have hnd := (hwf.2 (term, gm) (mapGet_mem _ _ _ hgm)).2
    rw [List.toFinset_card_of_nodup hnd]
    simp [mapKeys]
  refine ⟨?_, hsize⟩
  rw [mapGet_sum_of_docs_per_term _ _ _ hwf.1]
  cases hgm : mapGet (record [] calls) term with
  | none => simp [mapGet]
  | some gm =>
    have hne := (hwf.2 (term, gm) (mapGet_mem _ _ _ hgm)).1
    have hpos : 0 < gm.length := List.length_pos.2 hne
    simp [hpos, mapGet, hsize gm hgm]

/-! ## The rows of `write_tfidf_values` -/

section ScoringLemmas

set_option linter.unusedSectionVars false

variable {F : Type} [Zero F] [One F] [Add F] [Mul F] [Div F] [IntCast F]

theorem scan_docmap_foldl_absent (Log10 : F → F) (N df_t docid : Int) (docmap : DocCounts)
    (acc : Int × F) (h : docid ∉ mapKeys docmap) :
    docmap.foldl
      (fun (acc : Int × F) (e : Int × Int) =>
        if e.1 = docid then
          (e.2, if df_t > 0 then 1 + Log10 (e.2 : F) * Log10 ((N : F) / (df_t : F)) else acc.2)
        else acc) acc = acc := by
  induction docmap generalizing acc with
  | nil => rfl
  | cons e rest ih =>
    obtain ⟨d0, c0⟩ := e
    simp only [mapKeys, List.map_cons, List.mem_cons, not_or] at h
    have h0 : ¬ d0 = docid := fun e => h.1 e.symm
    simp only [List.foldl_cons, h0, if_false]
    exact ih acc h.2

theorem scan_docmap_foldl (Log10 : F → F) (N df_t docid : Int) (docmap : DocCounts)
    (acc : Int × F) (hnd : (mapKeys docmap).Nodup) :
    docmap.foldl
      (fun (acc : Int × F) (e : Int × Int) =>
        if e.1 = docid then
          (e.2, if df_t > 0 then 1 + Log10 (e.2 : F) * Log10 ((N : F) / (df_t : F)) else acc.2)
        else acc) acc =
      match mapGet docmap docid with
      | none => acc
      | some tf =>
        (tf, if df_t > 0 then 1 + Log10 (tf : F) * Log10 ((N : F) / (df_t : F)) else acc.2) := by
  induction docmap generalizing acc with
  | nil => simp [mapGet]
  | cons e rest ih =>
    obtain ⟨d0, c0⟩ := e
    simp only [mapKeys, List.map_cons, List.nodup_cons] at hnd
    by_cases h0 : d0 = docid
    · subst h0
      simp only [List.foldl_cons, if_true, mapGet]
      exact scan_docmap_foldl_absent Log10 N df_t d0 rest _ hnd.1
    · simp only [List.foldl_cons, h0, if_false, mapGet]
      exact ih acc hnd.2

theorem scan_docmap_eq (Log10 : F → F) (N df_t docid : Int) (docmap : DocCounts)
    (hnd : (mapKeys docmap).Nodup) :
    scan_docmap Log10 N df_t docid docmap =
      match mapGet docmap docid with
      | none => (0, 0)
      | some tf =>
        (tf, if df_t > 0 then 1 + Log10 (tf : F) * Log10 ((N : F) / (df_t : F)) else 0) := by
  unfold scan_docmap
  rw [scan_docmap_foldl Log10 N df_t docid docmap _ hnd]

theorem write_tfidf_values_eq (Log10 : F → F) (tm : TermMap) (tid : TermInDocsMap)
    (docid : Int) (h1 : ∀ e ∈ tm, (mapKeys e.2).Nodup)
    (h2 : ∀ e ∈ tm, ∃ df, mapGet tid e.1 = some df ∧ 0 < df) :
    write_tfidf_values Log10 tm tid docid = some (tm.filterMap (rowFor Log10 tid docid)) := by
  induction tm with
  | nil => simp [write_tfidf_values]
  | cons e rest ih =>
    obtain ⟨t0, gm0⟩ := e
    obtain ⟨df, hdf, hpos⟩ := h2 (t0, gm0) (List.mem_cons_self _ _)
    have hnd := h1 (t0, gm0) (List.mem_cons_self _ _)
    have ih' := ih (fun e he => h1 e (List.mem_cons_of_mem _ he))
      (fun e he => h2 e (List.mem_cons_of_mem _ he))
    simp only at hdf hnd
    unfold write_tfidf_values
    simp only [hdf, ih', scan_docmap_eq Log10 _ _ _ _ hnd]
    cases hg : mapGet gm0 docid with
    | none => simp [List.filterMap_cons, rowFor, hg, hdf]
    | some tf =>
      by_cases htf : 0 < tf
      · simp [List.filterMap_cons, rowFor, hg, hdf, htf, hpos]
      · simp [List.filterMap_cons, rowFor, hg, hdf, htf]

end ScoringLemmas
section ScoringTheorems

set_option linter.unusedSectionVars false

variable {F : Type} [Zero F] [One F] [Add F] [Mul F] [Div F] [IntCast F]

theorem rowFor_eq_some (Log10 : F → F) (tid : TermInDocsMap) (docid : Int)
    (e : String × DocCounts) (term : String) (s : F) :
    rowFor Log10 tid docid e = some (term, s) ↔
      e.1 = term ∧ ∃ tf df, mapGet e.2 docid = some tf ∧ 0 < tf ∧ mapGet tid e.1 = some df ∧
        s = 1 + Log10 (tf : F) * Log10 (((docids.length : Int) : F) / (df : F)) := by
  unfold rowFor
  cases hg : mapGet e.2 docid with
  | none => simp
  | some tf =>
    cases hd : mapGet tid e.1 with
    | none => simp
    | some df =>
      by_cases htf : 0 < tf
      · simp only [htf, if_true, Option.some.injEq, Prod.mk.injEq]
        constructor
        · rintro ⟨h1, h2⟩
          exact ⟨h1, tf, df, rfl, htf, rfl, h2.symm⟩
        · rintro ⟨h1, tf', df', h2, _, h3, h4⟩
          cases h2
          cases h3
          exact ⟨h1, h4.symm⟩
      · simp only [htf, if_false]
        constructor
        · intro h
          cases h
        · rintro ⟨_, tf', df', h2, h3, _⟩
          cases h2
          exact absurd h3 htf

theorem rowFor_keys_sublist (Log10 : F → F) (tid : TermInDocsMap) (docid : Int)
    (tm : TermMap) :
    List.Sublist ((tm.filterMap (rowFor Log10 tid docid)).map Prod.fst) (mapKeys tm) := by
  induction tm with
  | nil => simp [mapKeys]
  | cons e rest ih =>
    simp only [mapKeys, List.map_cons] at ih ⊢
    rw [List.filterMap_cons]
    cases hr : rowFor Log10 tid docid e with
    | none =>
      simp only
      exact List.Sublist.cons _ ih
    | some row =>
      obtain ⟨t, s⟩ := row
      have := ((rowFor_eq_some Log10 tid docid e t s).1 hr).1
      simp only [List.map_cons, this]
      exact List.Sublist.cons₂ _ ih

theorem table_entry_of_WF (tm : TermMap) (h : WF tm) (e : String × DocCounts) (he : e ∈ tm) :
    mapGet (sum_of_docs_per_term tm []) e.1 = some (e.2.length : Int) ∧ 0 < (e.2.length : Int) := by
  have hget : mapGet tm e.1 = some e.2 := mapGet_of_mem tm e.1 e.2 h.1 he
  have hpos : 0 < e.2.length := List.length_pos.2 (h.2 e he).1
  rw [mapGet_sum_of_docs_per_term _ _ _ h.1, hget]
  simp [hpos, mapGet]

theorem write_tfidf_values_of_WF (Log10 : F → F) (tm : TermMap) (doc : Int) (h : WF tm) :
    write_tfidf_values Log10 tm (sum_of_docs_per_term tm []) doc =
      some (tm.filterMap (rowFor Log10 (sum_of_docs_per_term tm []) doc)) := by
  apply write_tfidf_values_eq
  · exact fun e he => (h.2 e he).2
  · exact fun e he => ⟨_, table_entry_of_WF tm h e he⟩

theorem mem_rows_iff (Log10 : F → F) (tm : TermMap) (tid : TermInDocsMap) (doc : Int)
    (h : WF tm) (term : String) (s : F) :
    (term, s) ∈ tm.filterMap (rowFor Log10 tid doc) ↔
      ∃ tf df, count tm term doc = some tf ∧ 0 < tf ∧ mapGet tid term = some df ∧
        s = 1 + Log10 (tf : F) * Log10 (((docids.length : Int) : F) / (df : F)) := by
  rw [List.mem_filterMap]
  constructor
  · rintro ⟨e, he, hrow⟩
    obtain ⟨h1, tf, df, h2, h3, h4, h5⟩ := (rowFor_eq_some _ _ _ _ _ _).1 hrow
    subst h1
    refine ⟨tf, df, ?_, h3, h4, h5⟩
    simp [count, mapGet_of_mem tm e.1 e.2 h.1 he, h2]
  · rintro ⟨tf, df, h1, h2, h3, h4⟩
    unfold count at h1
    cases hg : mapGet tm term with
    | none => simp [hg] at h1
    | some gm =>
      simp only [hg, Option.bind_some] at h1
      refine ⟨(term, gm), mapGet_mem _ _ _ hg, ?_⟩
      exact (rowFor_eq_some _ _ _ _ _ _).2 ⟨rfl, tf, df, h1, h2, h3, h4⟩

/-- C5: on a well-formed index with the document-frequency table built from it,
`write_tfidf_values(doc)` does not panic, writes at most one row per term, and writes the row
(term, s) exactly when the recorded count tf of the term in `doc` is > 0 and
s = 1 + Log10(tf) * Log10(N / df), with df the table value of the term and N = len(docids).
No row is written for a term that `doc` does not hold. -/
theorem write_tfidf_values_rows (Log10 : F → F) (tm : TermMap) (doc : Int) (h : WF tm) :
    ∃ rows, write_tfidf_values Log10 tm (sum_of_docs_per_term tm []) doc = some rows ∧
      (rows.map Prod.fst).Nodup ∧
      ∀ term s, (term, s) ∈ rows ↔
        ∃ tf df, count tm term doc = some tf ∧ 0 < tf ∧
          mapGet (sum_of_docs_per_term tm []) term = some df ∧
          s = 1 + Log10 (tf : F) * Log10 (((docids.length : Int) : F) / (df : F)) := by
  refine ⟨tm.filterMap (rowFor Log10 (sum_of_docs_per_term tm []) doc), ?_, ?_, ?_⟩
  · exact write_tfidf_values_of_WF Log10 tm doc h
  · exact List.Nodup.sublist (rowFor_keys_sublist _ _ _ _) h.1
  · intro term s
    exact mem_rows_iff Log10 tm _ doc h term s

theorem write_tfidf_values_rows_witness :
    WF [("cat", [(1, 3)]), ("dog", [(1, 2), (2, 3)])] ∧
    ∃ rows, write_tfidf_values (Real.logb 10) [("cat", [(1, 3)]), ("dog", [(1, 2), (2, 3)])]
        (sum_of_docs_per_term [("cat", [(1, 3)]), ("dog", [(1, 2), (2, 3)])] []) 1 = some rows ∧
      (rows.map Prod.fst).Nodup ∧
      ∀ term s, (term, s) ∈ rows ↔
        ∃ tf df, count [("cat", [(1, 3)]), ("dog", [(1, 2), (2, 3)])] term 1 = some tf ∧ 0 < tf ∧
          mapGet (sum_of_docs_per_term [("cat", [(1, 3)]), ("dog", [(1, 2), (2, 3)])] []) term
            = some df ∧
          s = 1 + Real.logb 10 (tf : ℝ) * Real.logb 10 (((docids.length : Int) : ℝ) / (df : ℝ)) :=
  ⟨by decide, write_tfidf_values_rows (Real.logb 10) _ 1 (by decide)⟩

end ScoringTheorems

/-! ## From the documents to the index -/

theorem record_append (tm : TermMap) (a b : List (String × Int)) :
    record tm (a ++ b) = record (record tm a) b := by
  simp [record, List.foldl_append]

theorem add_terms_to_dictionary_foldl (caseTable : Char → Char) (words : List String)
    (docid : Int) (acc : TermMap × Int) :
    (words.foldl
      (fun (acc : TermMap × Int) (w : String) =>
        let term := String.mk (strings.ToLower caseTable w.toList)
        let cterm := clean_term caseTable term
        let a := add_term acc.1 cterm docid
        (a.1, acc.2 + a.2)) acc).1
      = record acc.1 (words.map (fun w => (normalize caseTable w, docid))) := by
  induction words generalizing acc with
  | nil => simp [record]
  | cons w rest ih =>
    simp only [List.foldl_cons, List.map_cons]
    rw [ih]
    simp [record, normalize]

theorem add_terms_to_dictionary_fst (caseTable : Char → Char) (words : List String)
    (tm : TermMap) (dwc : DocWordCount) (docid : Int) :
    (add_terms_to_dictionary caseTable words tm dwc docid).1
      = record tm (words.map (fun w => (normalize caseTable w, docid))) := by
  unfold add_terms_to_dictionary
  exact add_terms_to_dictionary_foldl caseTable words docid (tm, 0)

theorem index_docs_fst (caseTable : Char → Char) (files : Int → List String) (ds : List Int)
    (tm : TermMap) (dwc : DocWordCount) :
    (index_docs caseTable files ds tm dwc).1 = record tm (corpus_calls caseTable files ds) := by
  induction ds generalizing tm dwc with
  | nil => simp [index_docs, corpus_calls, record]
  | cons d rest ih =>
    have hstep : index_docs caseTable files (d :: rest) tm dwc =
        index_docs caseTable files rest
          (add_terms_to_dictionary caseTable (files d) tm dwc d).1
          (add_terms_to_dictionary caseTable (files d) tm dwc d).2 := by
      simp [index_docs]
    rw [hstep, ih, add_terms_to_dictionary_fst, corpus_calls, record_append]

theorem mem_corpus_calls (caseTable : Char → Char) (files : Int → List String) (ds : List Int)
    (term : String) (d : Int) :
    (term, d) ∈ corpus_calls caseTable files ds ↔
      d ∈ ds ∧ ∃ w ∈ files d, normalize caseTable w = term := by
  induction ds with
  | nil => simp [corpus_calls]
  | cons d0 rest ih =>
    simp only [corpus_calls, List.mem_append, List.mem_map, Prod.mk.injEq, ih, List.mem_cons]
    constructor
    · rintro (⟨w, hw, h1, h2⟩ | ⟨h1, h2⟩)
      · subst h2
        exact ⟨Or.inl rfl, w, hw, h1⟩
      · exact ⟨Or.inr h1, h2⟩
    · rintro ⟨h1 | h1, w, hw, h2⟩
      · subst h1
        exact Or.inl ⟨w, hw, h2, rfl⟩
      · exact Or.inr ⟨h1, w, hw, h2⟩

/-! ## What the index holds after a sequence of `add_term` calls -/

theorem count_add_term_ne_none (tm : TermMap) (term : String) (docid : Int) (term' : String)
    (docid' : Int) :
    count (add_term tm term docid).1 term' docid' ≠ none ↔
      (term = term' ∧ docid = docid') ∨ count tm term' docid' ≠ none := by
  rw [count_add_term]
  by_cases h : term = term' ∧ docid = docid'
  · obtain ⟨rfl, rfl⟩ := h
    simp only [and_self, if_true, true_or, iff_true]
    cases hc : count tm term docid with
    | none => by_cases hm : mapGet tm term = none <;> simp [hm]
    | some c => simp
  · simp [h]

theorem count_record_ne_none (calls : List (String × Int)) (tm : TermMap) (term : String)
    (docid : Int) :
    count (record tm calls) term docid ≠ none ↔
      (term, docid) ∈ calls ∨ count tm term docid ≠ none := by
  induction calls generalizing tm with
  | nil => simp [record]
  | cons c rest ih =>
    have hstep : record tm (c :: rest) = record (add_term tm c.1 c.2).1 rest := by
      simp [record]
    rw [hstep, ih, count_add_term_ne_none]
    obtain ⟨t0, d0⟩ := c
    simp only [List.mem_cons, Prod.mk.injEq]
    constructor
    · rintro (h | ⟨h1, h2⟩ | h)
      · exact Or.inl (Or.inr h)
      · exact Or.inl (Or.inl ⟨h1.symm, h2.symm⟩)
      · exact Or.inr h
    · rintro ((⟨h1, h2⟩ | h) | h)
      · exact Or.inr (Or.inl ⟨h1.symm, h2.symm⟩)
      · exact Or.inl h
      · exact Or.inr (Or.inr h)

theorem add_term_PositiveCounts (tm : TermMap) (term : String) (docid : Int)
    (h : PositiveCounts tm) : PositiveCounts (add_term tm term docid).1 := by
  intro term' docid' c hc
  rw [count_add_term] at hc
  by_cases hk : term = term' ∧ docid = docid'
  · simp only [hk, and_self, if_true] at hc
    obtain ⟨rfl, rfl⟩ := hk
    cases hprev : count tm term docid with
    | none =>
      rw [hprev] at hc
      by_cases hm : mapGet tm term = none
      · simp [hm] at hc; omega
      · simp [hm] at hc; omega
    | some c0 =>
      rw [hprev] at hc
      have := h term docid c0 hprev
      simp at hc
      omega
  · simp only [hk, if_false] at hc
    exact h term' docid' c hc

theorem record_PositiveCounts (calls : List (String × Int)) (tm : TermMap)
    (h : PositiveCounts tm) : PositiveCounts (record tm calls) := by
  induction calls generalizing tm with
  | nil => simpa [record] using h
  | cons c rest ih =>
    simp only [record, List.foldl_cons]
    exact ih _ (add_term_PositiveCounts _ _ _ h)

theorem PositiveCounts_nil : PositiveCounts [] := by
  intro term docid c hc
  simp [count, mapGet] at hc

/-! ## The full pipeline -/

theorem docids_nodup : docids.Nodup := by
  decide

theorem mapKeys_mem_iff_count (tm : TermMap) (term : String) (gm : DocCounts) (d : Int)
    (h : mapGet tm term = some gm) : d ∈ mapKeys gm ↔ count tm term d ≠ none := by
  unfold count
  rw [h]
  simp only [Option.some_bind]
  constructor
  · intro hd hnone
    exact ((mapGet_eq_none_iff gm d).1 hnone) hd
  · intro hne
    by_contra hd
    exact hne ((mapGet_eq_none_iff gm d).2 hd)

/-- A term held by every document of `docids` has an inner mapping with one entry per
document. -/
theorem inner_length_of_every_document (caseTable : Char → Char) (files : Int → List String)
    (term : String)
    (h : ∀ d ∈ docids, ∃ w ∈ files d, normalize caseTable w = term) :
    ∃ gm, mapGet (index_docs caseTable files docids [] []).1 term = some gm ∧
      gm.length = docids.length := by
  rw [index_docs_fst]
  have hwf : WF (record [] (corpus_calls caseTable files docids)) := record_WF _ [] WF_nil
  have hcount : ∀ d, count (record [] (corpus_calls caseTable files docids)) term d ≠ none ↔
      d ∈ docids := by
    intro d
    rw [count_record_ne_none, mem_corpus_calls]
    constructor
    · rintro (⟨hd, _⟩ | hc)
      · exact hd
      · exact absurd (by simp [count, mapGet]) hc
    · intro hd
      exact Or.inl ⟨hd, h d hd⟩
  cases hg : mapGet (record [] (corpus_calls caseTable files docids)) term with
  | none =>
    have h1 := (hcount 1).2 (by decide)
    simp [count, hg] at h1
  | some gm =>
    refine ⟨gm, rfl, ?_⟩
    have hnd : (mapKeys gm).Nodup := (hwf.2 (term, gm) (mapGet_mem _ _ _ hg)).2
    have hsub1 : mapKeys gm ⊆ docids := by
      intro d hd
      exact (hcount d).1 ((mapKeys_mem_iff_count _ _ _ _ hg).1 hd)
    have hsub2 : docids ⊆ mapKeys gm := by
      intro d hd
      exact (mapKeys_mem_iff_count _ _ _ _ hg).2 ((hcount d).2 hd)
    have l1 := (List.subperm_of_subset hnd hsub1).length_le
    have l2 := (List.subperm_of_subset docids_nodup hsub2).length_le
    simp only [mapKeys, List.length_map] at l1 l2
    omega

section PipelineLemmas

set_option linter.unusedSectionVars false

variable {F : Type} [Zero F] [One F] [Add F] [Mul F] [Div F] [IntCast F]

theorem write_docs_eq (Log10 : F → F) (tm : TermMap) (tid : TermInDocsMap) (ds : List Int)
    (h : ∀ d, ∃ rows, write_tfidf_values Log10 tm tid d = some rows) :
    ∃ out, write_docs Log10 tm tid ds = some out ∧ out.map Prod.fst = ds ∧
      ∀ d rows, (d, rows) ∈ out → write_tfidf_values Log10 tm tid d = some rows := by
  induction ds with
  | nil => exact ⟨[], by simp [write_docs]⟩
  | cons d rest ih =>
    obtain ⟨out, h1, h2, h3⟩ := ih
    obtain ⟨rows, hrows⟩ := h d
    refine ⟨(d, rows) :: out, ?_, ?_, ?_⟩
    · simp [write_docs, hrows, h1]
    · simp [h2]
    · intro d' rows' hmem
      rcases List.mem_cons.1 hmem with hm | hm
      · cases hm
        exact hrows
      · exact h3 d' rows' hm

end PipelineLemmas

/-- C7: when a term occurs (after normalisation) in every document of `docids`, `main` writes,
for every document, a row for the term, and every row written for the term carries the score
1 (real arithmetic), whatever its count; its document frequency equals N = len(docids). -/
theorem score_one_for_term_in_every_document (caseTable : Char → Char)
    (files : Int → List String) (term : String)
    (h : ∀ d ∈ docids, ∃ w ∈ files d, normalize caseTable w = term) :
    mapGet (sum_of_docs_per_term (index_docs caseTable files docids [] []).1 []) term
        = some (docids.length : Int) ∧
    ∃ out, main caseTable (Real.logb 10) files = some out ∧ out.map Prod.fst = docids ∧
      ∀ d rows, (d, rows) ∈ out →
        (term, (1 : ℝ)) ∈ rows ∧ ∀ s, (term, s) ∈ rows → s = 1 := by
  obtain ⟨gm, hgm, hlen⟩ := inner_length_of_every_document caseTable files term h
  have hwf : WF (index_docs caseTable files docids [] []).1 := by
    rw [index_docs_fst]
    exact record_WF _ [] WF_nil
  have hpos : PositiveCounts (index_docs caseTable files docids [] []).1 := by
    rw [index_docs_fst]
    exact record_PositiveCounts _ [] PositiveCounts_nil
  have hdf : mapGet (sum_of_docs_per_term (index_docs caseTable files docids [] []).1 []) term
      = some (docids.length : Int) := by
    have := (table_entry_of_WF _ hwf (term, gm) (mapGet_mem _ _ _ hgm)).1
    simpa [hlen] using this
  refine ⟨hdf, ?_⟩
  obtain ⟨out, h1, h2, h3⟩ := write_docs_eq (Real.logb 10)
    (index_docs caseTable files docids [] []).1
    (sum_of_docs_per_term (index_docs caseTable files docids [] []).1 []) docids
    (fun d => ⟨_, write_tfidf_values_of_WF (Real.logb 10) _ d hwf⟩)
  refine ⟨out, by simpa [main] using h1, h2, ?_⟩
  intro d rows hmem
  have hd : d ∈ docids := by
    rw [← h2]
    exact List.mem_map_of_mem Prod.fst hmem
  have hr := write_tfidf_values_of_WF (Real.logb 10) _ d hwf
  have heq : (index_docs caseTable files docids [] []).1.filterMap
      (rowFor (Real.logb 10)
        (sum_of_docs_per_term (index_docs caseTable files docids [] []).1 []) d) = rows := by
    have := h3 d rows hmem
    rw [hr] at this
    exact Option.some.inj this
  have hrows := mem_rows_iff (Real.logb 10) (index_docs caseTable files docids [] []).1
    (sum_of_docs_per_term (index_docs caseTable files docids [] []).1 []) d hwf
  rw [heq] at hrows
  have hscore : ∀ tf : Int,
      1 + Real.logb 10 (tf : ℝ) *
        Real.logb 10 (((docids.length : Int) : ℝ) / ((docids.length : Int) : ℝ)) = 1 := by
    intro tf
    have : ((docids.length : Int) : ℝ) / ((docids.length : Int) : ℝ) = 1 := by
      simp [docids]
    rw [this, Real.logb_one]
    simp
  constructor
  · have hc : count (index_docs caseTable files docids [] []).1 term d ≠ none := by
      rw [index_docs_fst, count_record_ne_none, mem_corpus_calls]
      exact Or.inl ⟨hd, h d hd⟩
    cases hcd : count (index_docs caseTable files docids [] []).1 term d with
    | none => exact absurd hcd hc
    | some tf =>
      rw [hrows]
      exact ⟨tf, (docids.length : Int), hcd, by have := hpos term d tf hcd; omega, hdf,
        (hscore tf).symm⟩
  · intro s hs
    obtain ⟨tf, df, _, _, h6, h7⟩ := (hrows term s).1 hs
    rw [hdf] at h6
    cases h6
    rw [h7]
    exact hscore tf

theorem score_one_for_term_in_every_document_witness :
    (∀ d ∈ docids, ∃ w ∈ (fun _ => ["Dogs", "dogs"]) d, normalize plainTable w = "dogs") ∧
    mapGet (sum_of_docs_per_term
        (index_docs plainTable (fun _ => ["Dogs", "dogs"]) docids [] []).1 []) "dogs"
        = some (docids.length : Int) ∧
    ∃ out, main plainTable (Real.logb 10) (fun _ => ["Dogs", "dogs"]) = some out ∧
      out.map Prod.fst = docids ∧
      ∀ d rows, (d, rows) ∈ out →
        ("dogs", (1 : ℝ)) ∈ rows ∧ ∀ s, ("dogs", s) ∈ rows → s = 1 :=
  ⟨by decide, score_one_for_term_in_every_document plainTable (fun _ => ["Dogs", "dogs"]) "dogs"
    (by decide)⟩

/-- The scoring formula gives exactly 1 for a recorded count of 1 (real arithmetic). -/
theorem score_of_recorded_count_one (N df : Int) :
    1 + Real.logb 10 (((1 : Int)) : ℝ) * Real.logb 10 ((N : ℝ) / (df : ℝ)) = 1 := by
  simp

/-- C6 (code at the failing input): `cat` occurs exactly once in document 1 and nowhere else,
yet `main` writes for it the score 1 + log10(2) * log10(5/1), which is not 1: `add_term`
has recorded the count 2 for this single occurrence. -/
theorem single_occurrence_score_not_one :
    ∃ s : ℝ, main plainTable (Real.logb 10) single_word_corpus
        = some [(1, [("cat", s)]), (2, []), (3, []), (4, []), (5, [])] ∧ s ≠ 1 := by
  have hidx : index_docs plainTable single_word_corpus docids [] []
      = ([("cat", [(1, 2)])], [(1, 1), (2, 0), (3, 0), (4, 0), (5, 0)]) := by decide
  have htid : sum_of_docs_per_term [("cat", [(1, 2)])] [] = [("cat", 1)] := by decide
  refine ⟨1 + Real.logb 10 (2 : ℝ) * Real.logb 10 (5 : ℝ), ?_, ?_⟩
  · simp only [main, hidx, htid]
    simp [write_docs, write_tfidf_values, scan_docmap, mapGet, docids]
  · have h2 : 0 < Real.logb 10 (2 : ℝ) := Real.logb_pos (by norm_num) (by norm_num)
    have h5 : 0 < Real.logb 10 (5 : ℝ) := Real.logb_pos (by norm_num) (by norm_num)
    have := mul_pos h2 h5
    linarith

/-! ## Term normalisation: `clean_term` -/

/-- C8 (code at the failing inputs): `clean_term` keeps the trailing `s`: `cats` stays `cats`
and `cat's` becomes `cats`, while `cat` gives `cat`.  The `strings.TrimSuffix` statements
assign to `term`, and the result is built from `name`. -/
theorem clean_term_keeps_plural_s :
    clean_term plainTable "cats" = "cats" ∧ clean_term plainTable "cat's" = "cats" ∧
      clean_term plainTable "cat" = "cat" := by
  decide

/-- C9: two tokens whose lower-cased forms are equal get the same Term from `clean_term`. -/
theorem clean_term_case_insensitive (caseTable : Char → Char) (a b : String)
    (h : strings.ToLower caseTable a.toList = strings.ToLower caseTable b.toList) :
    clean_term caseTable a = clean_term caseTable b := by
  unfold clean_term
  simp only [h]

theorem clean_term_case_insensitive_witness :
    strings.ToLower plainTable "Cat-Flap".toList = strings.ToLower plainTable "cAT-flaP".toList ∧
      clean_term plainTable "Cat-Flap" = clean_term plainTable "cAT-flaP" :=
  ⟨by decide, clean_term_case_insensitive plainTable "Cat-Flap" "cAT-flaP" (by decide)⟩

theorem char_le_iff (a b : Char) : a ≤ b ↔ a.toNat ≤ b.toNat := by
  rw [Char.le_def]
  exact Iff.rfl

theorem unicode_ToLower_not_upper (caseTable : Char → Char)
    (htable : ∀ r : Char, 127 < r.toNat → ¬ isUpperAscii (caseTable r)) (r : Char) :
    ¬ isUpperAscii (unicode.ToLower caseTable r) := by
  unfold unicode.ToLower
  by_cases h1 : r.toNat ≤ 127
  · simp only [h1, if_true]
    by_cases h2 : 'A' ≤ r ∧ r ≤ 'Z'
    · simp only [h2, and_self, if_true]
      rw [char_le_iff, char_le_iff] at h2
      have h3 : 65 ≤ r.toNat := h2.1
      have h4 : r.toNat ≤ 90 := h2.2
      unfold isUpperAscii
      generalize r.toNat = n at h3 h4
      interval_cases n <;> decide
    · simp only [h2, if_false]
      exact h2
  · simp only [h1, if_false]
    exact htable r (by omega)

theorem forall_dropWhile {P : Char → Prop} (f : Char → Bool) (l : List Char)
    (h : ∀ c ∈ l, P c) : ∀ c ∈ l.dropWhile f, P c :=
  fun c hc => h c ((List.dropWhile_sublist f).subset hc)

theorem forall_takeWhile {P : Char → Prop} (f : Char → Bool) (l : List Char)
    (h : ∀ c ∈ l, P c) : ∀ c ∈ l.takeWhile f, P c :=
  fun c hc => h c ((List.takeWhile_sublist f).subset hc)

theorem forall_TrimRight {P : Char → Prop} (s cutset : List Char) (h : ∀ c ∈ s, P c) :
    ∀ c ∈ strings.TrimRight s cutset, P c := by
  intro c hc
  unfold strings.TrimRight at hc
  rw [List.mem_reverse] at hc
  exact forall_dropWhile _ _ (fun c hc => h c (List.mem_reverse.1 hc)) c hc

theorem forall_Trim {P : Char → Prop} (s cutset : List Char) (h : ∀ c ∈ s, P c) :
    ∀ c ∈ strings.Trim s cutset, P c := by
  unfold strings.Trim
  exact forall_TrimRight _ _ (forall_dropWhile _ _ h)

theorem forall_ReplaceDoubleDash {P : Char → Prop} (s : List Char) (h : ∀ c ∈ s, P c) :
    ∀ c ∈ strings.ReplaceDoubleDash s, P c := by
  induction s using strings.ReplaceDoubleDash.induct with
  | case1 => simp [strings.ReplaceDoubleDash]
  | case2 c => simpa [strings.ReplaceDoubleDash] using h
  | case3 c d rest hcd ih =>
    intro x hx
    simp only [strings.ReplaceDoubleDash, hcd, and_self, if_true, List.mem_cons] at hx
    rcases hx with hx | hx
    · subst hx
      have := h c (by simp)
      rwa [hcd.1] at this
    · exact ih (fun y hy => h y (by simp [hy])) x hx
  | case4 c d rest hcd ih =>
    intro x hx
    simp only [strings.ReplaceDoubleDash, hcd, if_false, List.mem_cons] at hx
    rcases hx with hx | hx
    · subst hx
      exact h x (by simp)
    · exact ih (fun y hy => h y (List.mem_cons_of_mem _ hy)) x hx

theorem forall_ReplaceAllString (P Q : Char → Prop) (cls : Char → Bool) (src repl : List Char)
    (hsrc : ∀ c ∈ src, P c) (hrepl : ∀ c ∈ repl, Q c)
    (hkeep : ∀ c, P c → cls c = false → Q c) :
    ∀ c ∈ regexp.ReplaceAllString cls src repl, Q c := by
  induction src with
  | nil => simp [regexp.ReplaceAllString]
  | cons a rest ih =>
    have ih' := ih (fun c hc => hsrc c (List.mem_cons_of_mem _ hc))
    intro c hc
    unfold regexp.ReplaceAllString at hc
    by_cases ha : cls a = true
    · simp only [ha, if_true, List.mem_append] at hc
      rcases hc with hc | hc
      · exact hrepl c hc
      · exact ih' c hc
    · simp only [ha, Bool.false_eq_true, if_false, List.mem_cons] at hc
      rcases hc with hc | hc
      · subst hc
        exact hkeep c (hsrc c (by simp)) (by simpa using ha)
      · exact ih' c hc

theorem forall_Base {P : Char → Prop} (p : List Char) (hdot : P '.') (hslash : P '/')
    (h : ∀ c ∈ p, P c) : ∀ c ∈ path.Base p, P c := by
  intro c hc
  unfold path.Base at hc
  by_cases h1 : p = []
  · simp only [h1, if_true, List.mem_singleton] at hc
    rw [hc]
    exact hdot
  · simp only [h1, if_false] at hc
    split at hc
    · simp only [List.mem_singleton] at hc
      rw [hc]
      exact hslash
    · rw [List.mem_reverse] at hc
      have h2 := (List.takeWhile_sublist _).subset hc
      simp only [List.mem_reverse] at h2
      have h3 := (List.dropWhile_sublist _).subset h2
      exact h c (List.mem_reverse.1 h3)

theorem forall_append_singleton {P : Char → Prop} (out : List Char) (c : Char)
    (hout : ∀ x ∈ out, P x) (hc : P c) : ∀ x ∈ out ++ [c], P x := by
  intro x hx
  rcases List.mem_append.1 hx with hx | hx
  · exact hout x hx
  · rw [List.mem_singleton.1 hx]
    exact hc

theorem forall_cleanLoop {P : Char → Prop} (rooted : Bool) (hdot : P '.') (hslash : P '/')
    (input : List Char) (mode : path.Mode) (out : List Char) (dotdot : Nat)
    (hin : ∀ c ∈ input, P c) (hout : ∀ c ∈ out, P c) :
    ∀ c ∈ path.cleanLoop rooted input mode out dotdot, P c := by
  induction input generalizing mode out dotdot with
  | nil =>
    unfold path.cleanLoop
    exact hout
  | cons a rest ih =>
    have hrest : ∀ c ∈ rest, P c := fun c hc => hin c (List.mem_cons_of_mem _ hc)
    have ha : P a := hin a (List.mem_cons_self _ _)
    cases mode with
    | copy =>
      unfold path.cleanLoop
      split
      · exact ih _ _ _ hrest hout
      · exact ih _ _ _ hrest (forall_append_singleton out a hout ha)
    | skip =>
      unfold path.cleanLoop
      exact ih _ _ _ hrest hout
    | start =>
      unfold path.cleanLoop
      split
      · exact ih _ _ _ hrest hout
      · split
        · exact ih _ _ _ hrest hout
        · split
          · split
            · exact ih _ _ _ hrest (fun c hc => hout c ((List.take_sublist _ _).subset hc))
            · split
              · apply ih _ _ _ hrest
                intro c hc
                rcases List.mem_append.1 hc with hc | hc
                · split at hc
                  · exact forall_append_singleton out '/' hout hslash c hc
                  · exact hout c hc
                · simp only [List.mem_cons, List.mem_singleton, List.not_mem_nil, or_false,
                    or_self] at hc
                  rw [hc]
                  exact hdot
              · exact ih _ _ _ hrest hout
          · apply ih _ _ _ hrest
            apply forall_append_singleton _ _ _ ha
            intro c hc
            split at hc
            · exact forall_append_singleton out '/' hout hslash c hc
            · exact hout c hc

theorem forall_Clean {P : Char → Prop} (p : List Char) (hdot : P '.') (hslash : P '/')
    (h : ∀ c ∈ p, P c) : ∀ c ∈ path.Clean p, P c := by
  intro c hc
  unfold path.Clean at hc
  by_cases h1 : p = []
  · simp only [h1, if_true, List.mem_singleton] at hc
    rw [hc]
    exact hdot
  · simp only [h1, if_false] at hc
    by_cases hr : decide (p.head? = some '/') = true
    · simp only [hr, if_true] at hc
      split at hc
      · simp only [List.mem_singleton] at hc
        rw [hc]
        exact hdot
      · refine forall_cleanLoop _ hdot hslash _ _ _ _ ?_ ?_ c hc
        · exact fun x hx => h x (List.mem_of_mem_tail hx)
        · intro x hx
          rw [List.mem_singleton.1 hx]
          exact hslash
    · simp only [hr, Bool.false_eq_true, if_false] at hc
      split at hc
      · simp only [List.mem_singleton] at hc
        rw [hc]
        exact hdot
      · exact forall_cleanLoop _ hdot hslash _ _ _ _ h (by simp) c hc

theorem forall_ToLower_not_upper (caseTable : Char → Char)
    (htable : ∀ r : Char, 127 < r.toNat → ¬ isUpperAscii (caseTable r)) (s : List Char) :
    ∀ c ∈ strings.ToLower caseTable s, ¬ isUpperAscii c := by
  intro c hc
  unfold strings.ToLower at hc
  obtain ⟨r, _, hr⟩ := List.mem_map.1 hc
  rw [← hr]
  exact unicode_ToLower_not_upper caseTable htable r

theorem legal_false_not_upper (c : Char) (hup : ¬ isUpperAscii c)
    (hl : regexp.legal c = false) :
    ('a' ≤ c ∧ c ≤ 'z') ∨ ('0' ≤ c ∧ c ≤ '9') ∨ c = '-' := by
  unfold isUpperAscii at hup
  simp only [regexp.legal, regexp.alnum, Bool.not_eq_false', Bool.or_eq_true, Bool.and_eq_true,
    decide_eq_true_eq] at hl
  tauto

/-- C10: every character of the result of `clean_term` is a lower-case ASCII letter, a digit
or a hyphen.  The Unicode case table is a parameter of the model; the hypothesis states the
one fact used about it: lower-casing never yields an upper-case ASCII letter. -/
theorem clean_term_charset (caseTable : Char → Char)
    (htable : ∀ r : Char, 127 < r.toNat → ¬ ('A' ≤ caseTable r ∧ caseTable r ≤ 'Z'))
    (term : String) :
    ∀ c ∈ (clean_term caseTable term).toList,
      ('a' ≤ c ∧ c ≤ 'z') ∨ ('0' ≤ c ∧ c ≤ '9') ∨ c = '-' := by
  have hdot : ¬ isUpperAscii '.' := by unfold isUpperAscii; decide
  have hslash : ¬ isUpperAscii '/' := by unfold isUpperAscii; decide
  have h0 := forall_ToLower_not_upper caseTable htable term.toList
  have h1 := forall_Base _ hdot hslash h0
  have h2 := forall_Clean _ hdot hslash h1
  have h3 := forall_Trim _ [' '] h2
  have h4 : ∀ c ∈ regexp.ReplaceAllString regexp.seps
      (strings.Trim (path.Clean (path.Base (strings.ToLower caseTable term.toList))) [' '])
      ['-'], ¬ isUpperAscii c := by
    apply forall_ReplaceAllString (fun c => ¬ isUpperAscii c) (fun c => ¬ isUpperAscii c)
      regexp.seps _ _ h3
    · intro c hc
      rw [List.mem_singleton.1 hc]
      unfold isUpperAscii
      decide
    · exact fun c hc _ => hc
  have h5 : ∀ c ∈ regexp.ReplaceAllString regexp.legal
      (regexp.ReplaceAllString regexp.seps
        (strings.Trim (path.Clean (path.Base (strings.ToLower caseTable term.toList))) [' '])
        ['-']) [], ('a' ≤ c ∧ c ≤ 'z') ∨ ('0' ≤ c ∧ c ≤ '9') ∨ c = '-' := by
    apply forall_ReplaceAllString (fun c => ¬ isUpperAscii c)
      (fun c => ('a' ≤ c ∧ c ≤ 'z') ∨ ('0' ≤ c ∧ c ≤ '9') ∨ c = '-') regexp.legal _ _ h4
    · simp
    · exact fun c hc hl => legal_false_not_upper c hc hl
  have h6 := forall_ReplaceDoubleDash _ h5
  have h7 := forall_TrimRight _ [','] h6
  intro c hc
  exact h7 c hc

theorem clean_term_charset_witness :
    (∀ r : Char, 127 < r.toNat → ¬ ('A' ≤ plainTable r ∧ plainTable r ≤ 'Z')) ∧
    ∀ c ∈ (clean_term plainTable "a/b/Hello,_World's--x---y.").toList,
      ('a' ≤ c ∧ c ≤ 'z') ∨ ('0' ≤ c ∧ c ≤ '9') ∨ c = '-' :=
  ⟨fun r hr h => by
      have h2 : r.toNat ≤ 90 := (char_le_iff _ _).1 h.2
      omega,
    clean_term_charset plainTable
      (fun r hr h => by
        have h2 : r.toNat ≤ 90 := (char_le_iff _ _).1 h.2
        omega)
      "a/b/Hello,_World's--x---y."⟩

/-! ## The exact counts after a sequence of `add_term` calls -/

theorem mapGet_add_term_eq_none (tm : TermMap) (term : String) (docid : Int) (term' : String) :
    mapGet (add_term tm term docid).1 term' = none ↔ term ≠ term' ∧ mapGet tm term' = none := by
  rw [add_term_fst, mapGet_mapSet]
  by_cases h : term = term' <;> simp [h]

/-- The counts after the calls `calls` made on the index `tm`.  A pair that had a count gains
one per call.  A pair without a count gets the number of its calls, plus one when the term is
new to the index and its first call names this document. -/
theorem count_record (calls : List (String × Int)) (tm : TermMap) (term : String)
    (docid : Int) :
    count (record tm calls) term docid =
      match count tm term docid with
      | some c => some (c + (occurrences calls term docid : Int))
      | none =>
        if occurrences calls term docid = 0 then none
        else if mapGet tm term = none ∧ firstDoc calls term = some docid then
          some ((occurrences calls term docid : Int) + 1)
        else some (occurrences calls term docid : Int) := by
  induction calls generalizing tm with
  | nil =>
    cases h : count tm term docid <;> simp [record, occurrences, h]
  | cons c rest ih =>
    obtain ⟨t0, d0⟩ := c
    have hstep : record tm ((t0, d0) :: rest) = record (add_term tm t0 d0).1 rest := by
      simp [record]
    rw [hstep, ih, count_add_term]
    by_cases ht : t0 = term
    · subst ht
      by_cases hd : d0 = docid
      · subst hd
        have hocc : occurrences ((t0, d0) :: rest) t0 d0 = occurrences rest t0 d0 + 1 := by
          simp [occurrences]
        have hfirst : firstDoc ((t0, d0) :: rest) t0 = some d0 := by
          simp [firstDoc]
        simp only [and_self, if_true, hocc, hfirst]
        cases hc : count tm t0 d0 with
        | some k =>
          simp only [Nat.cast_add, Nat.cast_one]
          congr 1
          ring
        | none =>
          by_cases hm : mapGet tm t0 = none
          · simp only [hm, if_true, and_self]
            simp
            ring
          · simp only [hm, if_false, false_and]
            simp
            ring
      · have hocc : occurrences ((t0, d0) :: rest) t0 docid = occurrences rest t0 docid := by
          unfold occurrences
          exact List.count_cons_of_ne (by intro h; cases h; exact hd rfl) rest
        have hfirst : firstDoc ((t0, d0) :: rest) t0 = some d0 := by
          simp [firstDoc]
        have hm : ¬ mapGet (add_term tm t0 d0).1 t0 = none := by
          rw [mapGet_add_term_eq_none]
          simp
        simp only [hd, and_false, if_false, hocc, hfirst, hm, false_and, Option.some.injEq]
    · have hocc : occurrences ((t0, d0) :: rest) term docid = occurrences rest term docid := by
        unfold occurrences
        exact List.count_cons_of_ne (by intro h; cases h; exact ht rfl) rest
      have hfirst : firstDoc ((t0, d0) :: rest) term = firstDoc rest term := by
        simp [firstDoc, ht]
      have hm : mapGet (add_term tm t0 d0).1 term = none ↔ mapGet tm term = none := by
        rw [mapGet_add_term_eq_none]
        simp [ht]
      simp only [ht, false_and, if_false, hocc, hfirst, hm]

/-- Counts of an index built from the empty one: a pair never recorded has no count, and a
recorded pair has the number of its calls, plus one when the first call for the term names
this document. -/
theorem count_record_nil (calls : List (String × Int)) (term : String) (docid : Int) :
    count (record [] calls) term docid =
      if occurrences calls term docid = 0 then none
      else if firstDoc calls term = some docid then
        some ((occurrences calls term docid : Int) + 1)
      else some (occurrences calls term docid : Int) := by
  rw [count_record]
  simp [count, mapGet]

/-! ## The visiting order of `range` does not matter -/

theorem WF_of_perm (tm tm' : TermMap) (hp : tm'.Perm tm) (h : WF tm) : WF tm' := by
  refine ⟨?_, fun e he => h.2 e (hp.subset he)⟩
  have : (mapKeys tm').Perm (mapKeys tm) := hp.map Prod.fst
  exact this.nodup_iff.2 h.1

theorem mapGet_of_perm (tm tm' : TermMap) (hp : tm'.Perm tm) (h : WF tm) (term : String) :
    mapGet tm' term = mapGet tm term := by
  have h' := WF_of_perm tm tm' hp h
  cases hg : mapGet tm term with
  | some gm => exact mapGet_of_mem tm' term gm h'.1 (hp.symm.subset (mapGet_mem _ _ _ hg))
  | none =>
    cases hg' : mapGet tm' term with
    | none => rfl
    | some gm' =>
      have := mapGet_of_mem tm term gm' h.1 (hp.subset (mapGet_mem _ _ _ hg'))
      rw [hg] at this
      cases this

/-- Visiting the entries of a well-formed index in another order gives a table with the same
lookups. -/
theorem sum_of_docs_per_term_any_order (tm tm' : TermMap) (hp : tm'.Perm tm) (h : WF tm)
    (term : String) :
    mapGet (sum_of_docs_per_term tm' []) term = mapGet (sum_of_docs_per_term tm []) term := by
  have h' := WF_of_perm tm tm' hp h
  rw [mapGet_sum_of_docs_per_term _ _ _ h'.1, mapGet_sum_of_docs_per_term _ _ _ h.1,
    mapGet_of_perm tm tm' hp h]

/-! ## Hyphens and commas in the result of `clean_term` -/

theorem forall_clean_term_not_legal (caseTable : Char → Char) (term : String) :
    ∀ c ∈ (clean_term caseTable term).toList, regexp.legal c = false := by
  have h5 : ∀ c ∈ regexp.ReplaceAllString regexp.legal
      (regexp.ReplaceAllString regexp.seps
        (strings.Trim (path.Clean (path.Base (strings.ToLower caseTable term.toList))) [' '])
        ['-']) [], regexp.legal c = false := by
    apply forall_ReplaceAllString (fun _ => True) (fun c => regexp.legal c = false)
      regexp.legal _ _ (fun _ _ => trivial)
    · simp
    · exact fun c _ hl => hl
  have h6 := forall_ReplaceDoubleDash _ h5
  have h7 := forall_TrimRight _ [','] h6
  intro c hc
  exact h7 c hc

/-- C11 (counterexample): `clean_term("-a")` is `-a`, a result that begins with a hyphen. -/
theorem clean_term_leading_hyphen_kept :
    clean_term plainTable "-a" = "-a" ∧
      ¬ ((clean_term plainTable "-a").toList.head? ≠ some '-' ∧
        (clean_term plainTable "-a").toList.getLast? ≠ some '-' ∧
        (clean_term plainTable "-a").toList.head? ≠ some ',' ∧
        (clean_term plainTable "-a").toList.getLast? ≠ some ',') := by
  decide

/-- C11 (amended): the result of `clean_term` holds no comma, so it neither begins nor ends
with a comma. -/
theorem clean_term_no_comma (caseTable : Char → Char) (term : String) :
    ',' ∉ (clean_term caseTable term).toList ∧
      (clean_term caseTable term).toList.head? ≠ some ',' ∧
      (clean_term caseTable term).toList.getLast? ≠ some ',' := by
  have hno : ',' ∉ (clean_term caseTable term).toList := by
    intro hmem
    have := forall_clean_term_not_legal caseTable term ',' hmem
    revert this
    decide
  refine ⟨hno, ?_, ?_⟩
  · intro h
    exact hno (List.mem_of_mem_head? h)
  · intro h
    exact hno (List.mem_of_mem_getLast? h)

/-- C12 (code at the failing inputs): a run of three hyphens, typed as such or produced by the
separator replacement, leaves a doubled hyphen in the result: `strings.Replace` makes one pass
over non-overlapping occurrences of `--`. -/
theorem clean_term_leaves_double_dash :
    clean_term plainTable "a---b" = "a--b" ∧ clean_term plainTable "a_-_b" = "a--b" ∧
      clean_term plainTable "a----b" = "a--b" := by
  decide

/-! ## Invariants of every reachable index -/

/-- C13: in every index built from the empty index by `add_term` calls, every listed term has
a non-empty inner mapping and every stored count is at least 1. -/
theorem reachable_index_invariant (calls : List (String × Int)) :
    (∀ term gm, mapGet (record [] calls) term = some gm → gm ≠ []) ∧
      (∀ e ∈ record [] calls, e.2 ≠ [] ∧ ∀ p ∈ e.2, 1 ≤ p.2) ∧
      (∀ term doc c, count (record [] calls) term doc = some c → 1 ≤ c) := by
  have hwf : WF (record [] calls) := record_WF calls [] WF_nil
  have hpos : PositiveCounts (record [] calls) := record_PositiveCounts calls [] PositiveCounts_nil
  refine ⟨?_, ?_, hpos⟩
  · intro term gm hg
    exact (hwf.2 (term, gm) (mapGet_mem _ _ _ hg)).1
  · intro e he
    refine ⟨(hwf.2 e he).1, ?_⟩
    intro p hp
    apply hpos e.1 p.1 p.2
    unfold count
    rw [mapGet_of_mem _ e.1 e.2 hwf.1 he]
    simp only [Option.some_bind]
    exact mapGet_of_mem e.2 p.1 p.2 (hwf.2 e he).2 hp

/-! ## The order of the tokens of one document -/

theorem mapGet_record_eq_none (calls : List (String × Int)) (tm : TermMap) (term : String) :
    mapGet (record tm calls) term = none ↔
      mapGet tm term = none ∧ ∀ c ∈ calls, c.1 ≠ term := by
  induction calls generalizing tm with
  | nil => simp [record]
  | cons c rest ih =>
    have hstep : record tm (c :: rest) = record (add_term tm c.1 c.2).1 rest := by
      simp [record]
    rw [hstep, ih, mapGet_add_term_eq_none]
    simp only [List.mem_cons, forall_eq_or_imp]
    tauto

theorem occurrences_perm (l1 l2 : List (String × Int)) (h : l1.Perm l2) (term : String)
    (docid : Int) : occurrences l1 term docid = occurrences l2 term docid := by
  unfold occurrences List.count
  exact h.countP_eq _

theorem firstDoc_same_doc (terms : List String) (doc : Int) (term : String) :
    firstDoc (terms.map (fun t => (t, doc))) term =
      if term ∈ terms then some doc else none := by
  induction terms with
  | nil => simp [firstDoc]
  | cons t rest ih =>
    unfold firstDoc at ih ⊢
    by_cases ht : t = term
    · simp [ht]
    · have ht' : ¬ term = t := fun e => ht e.symm
      simp only [List.map_cons, List.find?_cons, ht, decide_False, List.mem_cons, ht', false_or]
      exact ih

theorem count_record_same_doc_perm (tm : TermMap) (doc : Int) (ts1 ts2 : List String)
    (h : ts1.Perm ts2) (term : String) (docid : Int) :
    count (record tm (ts1.map (fun t => (t, doc)))) term docid =
      count (record tm (ts2.map (fun t => (t, doc)))) term docid := by
  rw [count_record, count_record, firstDoc_same_doc, firstDoc_same_doc,
    occurrences_perm _ _ (h.map (fun t => (t, doc)))]
  have hmem : term ∈ ts1 ↔ term ∈ ts2 := h.mem_iff
  simp only [hmem]

theorem mapGet_record_same_doc_perm (tm : TermMap) (doc : Int) (ts1 ts2 : List String)
    (h : ts1.Perm ts2) (term : String) :
    (mapGet (record tm (ts1.map (fun t => (t, doc)))) term = none ↔
      mapGet (record tm (ts2.map (fun t => (t, doc)))) term = none) := by
  rw [mapGet_record_eq_none, mapGet_record_eq_none]
  have hp := h.map (fun t => (t, doc))
  constructor
  · rintro ⟨h1, h2⟩
    exact ⟨h1, fun c hc => h2 c (hp.symm.subset hc)⟩
  · rintro ⟨h1, h2⟩
    exact ⟨h1, fun c hc => h2 c (hp.subset hc)⟩

/-- C14: from any index state, recording for one document `doc` two token lists that are
permutations of one another gives the same index: the same terms are present and every pair
(term, document) has the same count.  This holds for the term lists handed to `add_term` and
for the words handed to `add_terms_to_dictionary`. -/
theorem record_order_irrelevant (caseTable : Char → Char) (tm : TermMap) (dwc : DocWordCount)
    (doc : Int) (ws1 ws2 : List String) (h : ws1.Perm ws2) :
    ((∀ term, mapGet (record tm (ws1.map (fun t => (t, doc)))) term = none ↔
        mapGet (record tm (ws2.map (fun t => (t, doc)))) term = none) ∧
      (∀ term docid, count (record tm (ws1.map (fun t => (t, doc)))) term docid =
        count (record tm (ws2.map (fun t => (t, doc)))) term docid)) ∧
    ((∀ term, mapGet (add_terms_to_dictionary caseTable ws1 tm dwc doc).1 term = none ↔
        mapGet (add_terms_to_dictionary caseTable ws2 tm dwc doc).1 term = none) ∧
      (∀ term docid, count (add_terms_to_dictionary caseTable ws1 tm dwc doc).1 term docid =
        count (add_terms_to_dictionary caseTable ws2 tm dwc doc).1 term docid)) := by
  refine ⟨⟨fun term => mapGet_record_same_doc_perm tm doc ws1 ws2 h term,
    fun term docid => count_record_same_doc_perm tm doc ws1 ws2 h term docid⟩, ?_⟩
  have hn : (ws1.map (normalize caseTable)).Perm (ws2.map (normalize caseTable)) := h.map _
  have e1 : ∀ ws : List String, (add_terms_to_dictionary caseTable ws tm dwc doc).1 =
      record tm ((ws.map (normalize caseTable)).map (fun t => (t, doc))) := by
    intro ws
    rw [add_terms_to_dictionary_fst, List.map_map]
    rfl
  rw [e1, e1]
  exact ⟨fun term => mapGet_record_same_doc_perm tm doc _ _ hn term,
    fun term docid => count_record_same_doc_perm tm doc _ _ hn term docid⟩

theorem record_order_irrelevant_witness :
    ["dog", "cat", "dog"].Perm ["cat", "dog", "dog"] ∧
    (((∀ term, mapGet (record [("cat", [(1, 2)])]
          (["dog", "cat", "dog"].map (fun t => (t, 2)))) term = none ↔
        mapGet (record [("cat", [(1, 2)])]
          (["cat", "dog", "dog"].map (fun t => (t, 2)))) term = none) ∧
      (∀ term docid, count (record [("cat", [(1, 2)])]
          (["dog", "cat", "dog"].map (fun t => (t, 2)))) term docid =
        count (record [("cat", [(1, 2)])]
          (["cat", "dog", "dog"].map (fun t => (t, 2)))) term docid)) ∧
    ((∀ term, mapGet (add_terms_to_dictionary plainTable ["dog", "cat", "dog"]
          [("cat", [(1, 2)])] [] 2).1 term = none ↔
        mapGet (add_terms_to_dictionary plainTable ["cat", "dog", "dog"]
          [("cat", [(1, 2)])] [] 2).1 term = none) ∧
      (∀ term docid, count (add_terms_to_dictionary plainTable ["dog", "cat", "dog"]
          [("cat", [(1, 2)])] [] 2).1 term docid =
        count (add_terms_to_dictionary plainTable ["cat", "dog", "dog"]
          [("cat", [(1, 2)])] [] 2).1 term docid))) :=
  ⟨by decide, record_order_irrelevant plainTable [("cat", [(1, 2)])] [] 2
    ["dog", "cat", "dog"] ["cat", "dog", "dog"] (by decide)⟩

/-! ## The per-document term count -/

/-- C15 (code at the failing input): in the scenario corpus document 2 is `dog dog dog`, one
distinct term, yet `DocWordCount[2]` is 0: `add_term` returns 1 only for a term that is new
to the whole index, and `dog` was first seen in document 1. -/
theorem doc_word_count_misses_known_terms :
    (index_docs plainTable scenario docids [] []).2
        = [(1, 2), (2, 0), (3, 0), (4, 0), (5, 0)] ∧
      mapGet (index_docs plainTable scenario docids [] []).2 2 = some 0 ∧
      ((scenario 2).map (normalize plainTable)).dedup.length = 1 := by
  decide

/-! ## Safety of the scorer -/

section ScorerSafety

set_option linter.unusedSectionVars false

variable {F : Type} [Zero F] [One F] [Add F] [Mul F] [Div F] [IntCast F]

/-- C17: for an index built from the empty index by `add_term` calls and the table that one
run of `sum_of_docs_per_term` builds from an empty `TermInDocsMap`, every term of the index
has a table entry df >= 1, `write_tfidf_values` does not panic, and the score of every row it
writes is the value of the formula 1 + Log10(tf) * Log10(N / df) for such a df, never the
default of the variable `score`. -/
theorem scorer_never_uses_default (Log10 : F → F) (calls : List (String × Int)) (doc : Int) :
    (∀ e ∈ record [] calls,
      ∃ df, mapGet (sum_of_docs_per_term (record [] calls) []) e.1 = some df ∧ 1 ≤ df) ∧
    ∃ rows, write_tfidf_values Log10 (record [] calls)
        (sum_of_docs_per_term (record [] calls) []) doc = some rows ∧
      ∀ term s, (term, s) ∈ rows →
        ∃ tf df, count (record [] calls) term doc = some tf ∧ 0 < tf ∧
          mapGet (sum_of_docs_per_term (record [] calls) []) term = some df ∧ 1 ≤ df ∧
          scan_docmap Log10 (docids.length : Int) df doc [(doc, tf)] = (tf, s) ∧
          s = 1 + Log10 (tf : F) * Log10 (((docids.length : Int) : F) / (df : F)) := by
  have hwf : WF (record [] calls) := record_WF calls [] WF_nil
  have htable : ∀ e ∈ record [] calls,
      ∃ df, mapGet (sum_of_docs_per_term (record [] calls) []) e.1 = some df ∧ 1 ≤ df := by
    intro e he
    have := table_entry_of_WF _ hwf e he
    exact ⟨_, this.1, by omega⟩
  refine ⟨htable, _, write_tfidf_values_of_WF Log10 _ doc hwf, ?_⟩
  intro term s hmem
  obtain ⟨tf, df, h1, h2, h3, h4⟩ := (mem_rows_iff Log10 _ _ doc hwf term s).1 hmem
  have hdf : 1 ≤ df := by
    unfold count at h1
    cases hg : mapGet (record [] calls) term with
    | none => simp [hg] at h1
    | some gm =>
      obtain ⟨df', h5, h6⟩ := htable (term, gm) (mapGet_mem _ _ _ hg)
      simp only at h5
      rw [h3] at h5
      cases h5
      exact h6
  refine ⟨tf, df, h1, h2, h3, hdf, ?_, h4⟩
  have hpos : 0 < df := by omega
  simp [scan_docmap, hpos, h4]

end ScorerSafety

/-! ## Bounds on the rows of the full pipeline -/

theorem inner_keys_subset_docids (caseTable : Char → Char) (files : Int → List String)
    (term : String) (gm : DocCounts)
    (hg : mapGet (index_docs caseTable files docids [] []).1 term = some gm) :
    mapKeys gm ⊆ docids := by
  intro d hd
  have hc := (mapKeys_mem_iff_count _ _ _ _ hg).1 hd
  rw [index_docs_fst, count_record_ne_none, mem_corpus_calls] at hc
  rcases hc with ⟨h1, _⟩ | hc
  · exact h1
  · exact absurd (by simp [count, mapGet]) hc

theorem table_value_le_N (caseTable : Char → Char) (files : Int → List String)
    (term : String) (df : Int)
    (h : mapGet (sum_of_docs_per_term (index_docs caseTable files docids [] []).1 []) term
      = some df) : 1 ≤ df ∧ df ≤ (docids.length : Int) := by
  have hwf : WF (index_docs caseTable files docids [] []).1 := by
    rw [index_docs_fst]
    exact record_WF _ [] WF_nil
  rw [mapGet_sum_of_docs_per_term _ _ _ hwf.1] at h
  cases hg : mapGet (index_docs caseTable files docids [] []).1 term with
  | none => simp [hg, mapGet] at h
  | some gm =>
    have hne := (hwf.2 (term, gm) (mapGet_mem _ _ _ hg)).1
    have hnd := (hwf.2 (term, gm) (mapGet_mem _ _ _ hg)).2
    have hpos : 0 < gm.length := List.length_pos.2 hne
    simp only [hg, hpos, if_true, mapGet, Option.getD_none, zero_add, Option.some.injEq] at h
    have hle := (List.subperm_of_subset hnd
      (inner_keys_subset_docids caseTable files term gm hg)).length_le
    simp only [mapKeys, List.length_map] at hle
    subst h
    constructor
    · omega
    · exact_mod_cast hle

/-- C19: for every corpus, `main` runs to the end and every row it writes comes from a
recorded count tf >= 1 and a document frequency df with 1 <= df <= N = len(docids); both
logarithm arguments are then >= 1 and the score is >= 1 (real arithmetic). -/
theorem main_rows_bounds (caseTable : Char → Char) (files : Int → List String) :
    ∃ out, main caseTable (Real.logb 10) files = some out ∧ out.map Prod.fst = docids ∧
      ∀ d rows term s, (d, rows) ∈ out → (term, s) ∈ rows →
        ∃ tf df : Int,
          count (index_docs caseTable files docids [] []).1 term d = some tf ∧
          mapGet (sum_of_docs_per_term (index_docs caseTable files docids [] []).1 []) term
            = some df ∧
          1 ≤ tf ∧ 1 ≤ df ∧ df ≤ (docids.length : Int) ∧
          (1 : ℝ) ≤ (tf : ℝ) ∧ (1 : ℝ) ≤ ((docids.length : Int) : ℝ) / (df : ℝ) ∧
          s = 1 + Real.logb 10 (tf : ℝ) * Real.logb 10 (((docids.length : Int) : ℝ) / (df : ℝ)) ∧
          1 ≤ s := by
  have hwf : WF (index_docs caseTable files docids [] []).1 := by
    rw [index_docs_fst]
    exact record_WF _ [] WF_nil
  obtain ⟨out, h1, h2, h3⟩ := write_docs_eq (Real.logb 10)
    (index_docs caseTable files docids [] []).1
    (sum_of_docs_per_term (index_docs caseTable files docids [] []).1 []) docids
    (fun d => ⟨_, write_tfidf_values_of_WF (Real.logb 10) _ d hwf⟩)
  refine ⟨out, by simpa [main] using h1, h2, ?_⟩
  intro d rows term s hmem hrow
  have hr := write_tfidf_values_of_WF (Real.logb 10) _ d hwf
  have heq : (index_docs caseTable files docids [] []).1.filterMap
      (rowFor (Real.logb 10)
        (sum_of_docs_per_term (index_docs caseTable files docids [] []).1 []) d) = rows := by
    have := h3 d rows hmem
    rw [hr] at this
    exact Option.some.inj this
  rw [← heq] at hrow
  obtain ⟨tf, df, h4, h5, h6, h7⟩ := (mem_rows_iff (Real.logb 10) _ _ d hwf term s).1 hrow
  obtain ⟨h8, h9⟩ := table_value_le_N caseTable files term df h6
  have htf : (1 : ℝ) ≤ (tf : ℝ) := by exact_mod_cast (by omega : (1 : Int) ≤ tf)
  have hdfpos : (0 : ℝ) < (df : ℝ) := by exact_mod_cast (by omega : (0 : Int) < df)
  have hdfle : (df : ℝ) ≤ ((docids.length : Int) : ℝ) := by exact_mod_cast h9
  have hratio : (1 : ℝ) ≤ ((docids.length : Int) : ℝ) / (df : ℝ) := by
    rw [le_div_iff₀ hdfpos]
    simpa using hdfle
  have hl1 : 0 ≤ Real.logb 10 (tf : ℝ) := Real.logb_nonneg (by norm_num) htf
  have hl2 : 0 ≤ Real.logb 10 (((docids.length : Int) : ℝ) / (df : ℝ)) :=
    Real.logb_nonneg (by norm_num) hratio
  refine ⟨tf, df, h4, h6, by omega, h8, h9, htf, hratio, h7, ?_⟩
  rw [h7]
  have := mul_nonneg hl1 hl2
  linarith

/-! ## Monotonicity of the score -/

theorem scan_docmap_single (N df doc tf : Int) (hdf : 1 ≤ df) :
    (scan_docmap (Real.logb 10) N df doc [(doc, tf)]).2 =
      1 + Real.logb 10 (tf : ℝ) * Real.logb 10 ((N : ℝ) / (df : ℝ)) := by
  have hpos : 0 < df := by omega
  simp [scan_docmap, hpos]

/-- C18: the score that the scoring loop computes, 1 + log10(tf) * log10(N / df) in real
arithmetic, does not decrease when tf grows (for 1 <= df <= N, 1 <= tf1 <= tf2) and does not
increase when df grows (for tf >= 1, 1 <= df1 <= df2 <= N). -/
theorem score_monotone (doc N df tf1 tf2 tf df1 df2 : Int) (hN : 1 ≤ N)
    (hdf : 1 ≤ df) (hdfN : df ≤ N) (htf1 : 1 ≤ tf1) (htf12 : tf1 ≤ tf2)
    (htf : 1 ≤ tf) (hdf1 : 1 ≤ df1) (hdf12 : df1 ≤ df2) (hdf2N : df2 ≤ N) :
    (scan_docmap (Real.logb 10) N df doc [(doc, tf1)]).2
        ≤ (scan_docmap (Real.logb 10) N df doc [(doc, tf2)]).2 ∧
      (scan_docmap (Real.logb 10) N df2 doc [(doc, tf)]).2
        ≤ (scan_docmap (Real.logb 10) N df1 doc [(doc, tf)]).2 := by
  have hb : (1 : ℝ) < 10 := by norm_num
  constructor
  · rw [scan_docmap_single N df doc tf1 hdf, scan_docmap_single N df doc tf2 hdf]
    have h1 : (0 : ℝ) < (tf1 : ℝ) := by exact_mod_cast (by omega : (0 : Int) < tf1)
    have h12 : (tf1 : ℝ) ≤ (tf2 : ℝ) := by exact_mod_cast htf12
    have hlog : Real.logb 10 (tf1 : ℝ) ≤ Real.logb 10 (tf2 : ℝ) :=
      Real.logb_le_logb_of_le hb h1 h12
    have hdfpos : (0 : ℝ) < (df : ℝ) := by exact_mod_cast (by omega : (0 : Int) < df)
    have hratio : (1 : ℝ) ≤ (N : ℝ) / (df : ℝ) := by
      rw [le_div_iff₀ hdfpos]
      have : (df : ℝ) ≤ (N : ℝ) := by exact_mod_cast hdfN
      simpa using this
    have hidf : 0 ≤ Real.logb 10 ((N : ℝ) / (df : ℝ)) := Real.logb_nonneg hb hratio
    have := mul_le_mul_of_nonneg_right hlog hidf
    linarith
  · have hdf2 : 1 ≤ df2 := by omega
    rw [scan_docmap_single N df2 doc tf hdf2, scan_docmap_single N df1 doc tf hdf1]
    have htf' : (1 : ℝ) ≤ (tf : ℝ) := by exact_mod_cast htf
    have hlog : 0 ≤ Real.logb 10 (tf : ℝ) := Real.logb_nonneg hb htf'
    have hN' : (0 : ℝ) < (N : ℝ) := by exact_mod_cast (by omega : (0 : Int) < N)
    have h1 : (0 : ℝ) < (df1 : ℝ) := by exact_mod_cast (by omega : (0 : Int) < df1)
    have h2 : (0 : ℝ) < (df2 : ℝ) := by exact_mod_cast (by omega : (0 : Int) < df2)
    have h12 : (df1 : ℝ) ≤ (df2 : ℝ) := by exact_mod_cast hdf12
    have hdiv : (N : ℝ) / (df2 : ℝ) ≤ (N : ℝ) / (df1 : ℝ) :=
      (div_le_div_iff_of_pos_left hN' h2 h1).2 h12
    have hidf : Real.logb 10 ((N : ℝ) / (df2 : ℝ)) ≤ Real.logb 10 ((N : ℝ) / (df1 : ℝ)) :=
      Real.logb_le_logb_of_le hb (div_pos hN' h2) hdiv
    have := mul_le_mul_of_nonneg_left hidf hlog
    linarith

theorem score_monotone_witness :
    ((1 : Int) ≤ 5 ∧ (1 : Int) ≤ 2 ∧ (2 : Int) ≤ 5 ∧ (1 : Int) ≤ 1 ∧ (1 : Int) ≤ 3 ∧
      (1 : Int) ≤ 3 ∧ (1 : Int) ≤ 1 ∧ (1 : Int) ≤ 2 ∧ (2 : Int) ≤ 5) ∧
    ((scan_docmap (Real.logb 10) 5 2 1 [(1, 1)]).2
        ≤ (scan_docmap (Real.logb 10) 5 2 1 [(1, 3)]).2 ∧
      (scan_docmap (Real.logb 10) 5 2 1 [(1, 3)]).2
        ≤ (scan_docmap (Real.logb 10) 5 1 1 [(1, 3)]).2) :=
  ⟨by decide, score_monotone 1 5 2 1 3 3 1 2 (by decide) (by decide) (by decide) (by decide)
    (by decide) (by decide) (by decide) (by decide) (by decide)⟩

/-! ## Tokens made of removable runes -/

theorem alnum_false_not_upper (c : Char) (h : regexp.alnum c = false) : ¬ ('A' ≤ c ∧ c ≤ 'Z') := by
  intro hup
  simp [regexp.alnum, hup.1, hup.2] at h

theorem removable_ascii_iff (caseTable : Char → Char) (c : Char) (hc : c.toNat ≤ 127) :
    removable caseTable c ↔ (regexp.alnum c = false ∧ c ≠ '-' ∧ regexp.seps c = false) := by
  unfold removable
  constructor
  · rintro ⟨h1, _, h3, h4⟩
    exact ⟨h1, h3, h4⟩
  · rintro ⟨h1, h3, h4⟩
    refine ⟨h1, ?_, h3, h4⟩
    have hup := alnum_false_not_upper c h1
    simp only [unicode.ToLower, hc, if_true, hup, if_false]
    exact h1

/-- A rune that the separator replacement leaves alone and the `legal` filter deletes. -/
theorem unicode_ToLower_removable (caseTable : Char → Char)
    (htable : ∀ r : Char, 127 < r.toNat → caseTable r ≠ '-' ∧ regexp.seps (caseTable r) = false)
    (c : Char) (h : removable caseTable c) :
    regexp.seps (unicode.ToLower caseTable c) = false ∧
      regexp.legal (unicode.ToLower caseTable c) = true := by
  obtain ⟨h1, h2, h3, h4⟩ := h
  by_cases hc : c.toNat ≤ 127
  · have hup := alnum_false_not_upper c h1
    have hlow : unicode.ToLower caseTable c = c := by
      simp only [unicode.ToLower, hc, if_true, hup, if_false]
    rw [hlow]
    refine ⟨h4, ?_⟩
    simp [regexp.legal, h1, h3]
  · have hlow : unicode.ToLower caseTable c = caseTable c := by
      simp only [unicode.ToLower, hc, if_false]
    rw [hlow] at h2 ⊢
    obtain ⟨h5, h6⟩ := htable c (by omega)
    refine ⟨h6, ?_⟩
    simp [regexp.legal, h2, h5]

theorem ReplaceAllString_none (cls : Char → Bool) (src repl : List Char)
    (h : ∀ c ∈ src, cls c = false) : regexp.ReplaceAllString cls src repl = src := by
  induction src with
  | nil => simp [regexp.ReplaceAllString]
  | cons a rest ih =>
    unfold regexp.ReplaceAllString
    have ha : cls a = false := h a (List.mem_cons_self _ _)
    simp only [ha, Bool.false_eq_true, if_false]
    rw [ih (fun c hc => h c (List.mem_cons_of_mem _ hc))]

theorem ReplaceAllString_all (cls : Char → Bool) (src : List Char)
    (h : ∀ c ∈ src, cls c = true) : regexp.ReplaceAllString cls src [] = [] := by
  induction src with
  | nil => simp [regexp.ReplaceAllString]
  | cons a rest ih =>
    unfold regexp.ReplaceAllString
    have ha : cls a = true := h a (List.mem_cons_self _ _)
    simp only [ha, if_true, List.nil_append]
    exact ih (fun c hc => h c (List.mem_cons_of_mem _ hc))

/-- C16: a token made up solely of removable runes, `/` and `.` among them, is cleaned to the
empty string.  The Unicode case table is a parameter of the model; the hypothesis on it states
the fact used: lower-casing a non-ASCII rune never yields a hyphen or a separator. -/
theorem clean_term_removable (caseTable : Char → Char)
    (htable : ∀ r : Char, 127 < r.toNat → caseTable r ≠ '-' ∧ regexp.seps (caseTable r) = false)
    (token : String) (h : ∀ c ∈ token.toList, removable caseTable c) :
    clean_term caseTable token = "" := by
  have h0 : ∀ c ∈ strings.ToLower caseTable token.toList,
      regexp.seps c = false ∧ regexp.legal c = true := by
    intro c hc
    unfold strings.ToLower at hc
    obtain ⟨r, hr, hrc⟩ := List.mem_map.1 hc
    rw [← hrc]
    exact unicode_ToLower_removable caseTable htable r (h r hr)
  have hdot : regexp.seps '.' = false ∧ regexp.legal '.' = true := by decide
  have hslash : regexp.seps '/' = false ∧ regexp.legal '/' = true := by decide
  have h1 := forall_Base _ hdot hslash h0
  have h2 := forall_Clean _ hdot hslash h1
  have h3 := forall_Trim _ [' '] h2
  have e1 : regexp.ReplaceAllString regexp.seps
      (strings.Trim (path.Clean (path.Base (strings.ToLower caseTable token.toList))) [' '])
      ['-'] =
      strings.Trim (path.Clean (path.Base (strings.ToLower caseTable token.toList))) [' '] :=
    ReplaceAllString_none _ _ _ (fun c hc => (h3 c hc).1)
  have e2 : regexp.ReplaceAllString regexp.legal
      (strings.Trim (path.Clean (path.Base (strings.ToLower caseTable token.toList))) [' '])
      [] = [] :=
    ReplaceAllString_all _ _ (fun c hc => (h3 c hc).2)
  unfold clean_term
  simp only [e1, e2]
  rfl

theorem plainTable_no_hyphen_sep (r : Char) (hr : 127 < r.toNat) :
    plainTable r ≠ '-' ∧ regexp.seps (plainTable r) = false := by
  refine ⟨fun e => ?_, ?_⟩
  · have : r.toNat = 45 := by rw [show r = '-' from e]; rfl
    omega
  · cases hs : regexp.seps r with
    | false => exact hs
    | true =>
      simp only [regexp.seps, Bool.or_eq_true, decide_eq_true_eq] at hs
      have : r.toNat ≤ 127 := by
        rcases hs with ((((hs | hs) | hs) | hs) | hs) | hs <;> (rw [hs]; decide)
      omega

theorem clean_term_removable_witness :
    (∀ r : Char, 127 < r.toNat → plainTable r ≠ '-' ∧ regexp.seps (plainTable r) = false) ∧
    (∀ c ∈ "/../.,;!?*/".toList, removable plainTable c) ∧
    clean_term plainTable "/../.,;!?*/" = "" :=
  ⟨plainTable_no_hyphen_sep, by decide,
    clean_term_removable plainTable plainTable_no_hyphen_sep "/../.,;!?*/" (by decide)⟩

/-! ## The last slash-separated segment -/

theorem takeWhile_append_stop {p : Char → Bool} (a : List Char) (b : Char) (c : List Char)
    (ha : ∀ x ∈ a, p x = true) (hb : p b = false) :
    (a ++ b :: c).takeWhile p = a := by
  induction a with
  | nil => simp [List.takeWhile, hb]
  | cons x rest ih =>
    have hx : p x = true := ha x (List.mem_cons_self _ _)
    rw [List.cons_append, List.takeWhile_cons_of_pos hx,
      ih (fun y hy => ha y (List.mem_cons_of_mem _ hy))]

theorem takeWhile_all {p : Char → Bool} (a : List Char) (ha : ∀ x ∈ a, p x = true) :
    a.takeWhile p = a := by
  induction a with
  | nil => rfl
  | cons x rest ih =>
    have hx : p x = true := ha x (List.mem_cons_self _ _)
    rw [List.takeWhile_cons_of_pos hx, ih (fun y hy => ha y (List.mem_cons_of_mem _ hy))]

theorem dropWhile_slash_reverse (y : List Char) (hne : y ≠ []) (hns : '/' ∉ y)
    (rest : List Char) :
    (y.reverse ++ rest).dropWhile (fun c => decide (c = '/')) = y.reverse ++ rest := by
  cases hr : y.reverse with
  | nil => exact absurd (List.reverse_eq_nil_iff.1 hr) hne
  | cons a t =>
    have ha : a ∈ y := by
      rw [← List.mem_reverse, hr]
      exact List.mem_cons_self _ _
    have : ¬ a = '/' := fun e => hns (e ▸ ha)
    simp [List.dropWhile, this]

/-- `path.Base` of a non-empty path without slash is the path itself. -/
theorem Base_segment (y : List Char) (hne : y ≠ []) (hns : '/' ∉ y) : path.Base y = y := by
  unfold path.Base
  have h1 := dropWhile_slash_reverse y hne hns []
  simp only [List.append_nil] at h1
  have h2 : y.reverse.takeWhile (fun c => decide (c ≠ '/')) = y.reverse := by
    apply takeWhile_all
    intro x hx
    have : x ≠ '/' := fun e => hns (e ▸ List.mem_reverse.1 hx)
    simpa using this
  simp only [hne, if_false, h1, List.reverse_reverse, h2]

/-- `path.Base` keeps what follows the last slash. -/
theorem Base_last_segment (x y : List Char) (hne : y ≠ []) (hns : '/' ∉ y) :
    path.Base (x ++ '/' :: y) = y := by
  unfold path.Base
  have hp : x ++ '/' :: y ≠ [] := by simp
  have hrev : (x ++ '/' :: y).reverse = y.reverse ++ '/' :: x.reverse := by simp
  have h1 : (x ++ '/' :: y).reverse.dropWhile (fun c => decide (c = '/'))
      = y.reverse ++ '/' :: x.reverse := by
    rw [hrev]
    exact dropWhile_slash_reverse y hne hns _
  have h2 : (y.reverse ++ '/' :: x.reverse).takeWhile (fun c => decide (c ≠ '/'))
      = y.reverse := by
    apply takeWhile_append_stop
    · intro c hc
      have : c ≠ '/' := fun e => hns (e ▸ List.mem_reverse.1 hc)
      simpa using this
    · simp
  simp only [hp, if_false, h1, List.reverse_reverse, h2, hne]

theorem unicode_ToLower_ne_slash (caseTable : Char → Char)
    (htable : ∀ r : Char, 127 < r.toNat → caseTable r ≠ '/') (c : Char) (hc : c ≠ '/') :
    unicode.ToLower caseTable c ≠ '/' := by
  unfold unicode.ToLower
  by_cases h1 : c.toNat ≤ 127
  · simp only [h1, if_true]
    by_cases h2 : 'A' ≤ c ∧ c ≤ 'Z'
    · simp only [h2, and_self, if_true]
      rw [char_le_iff, char_le_iff] at h2
      have h3 : 65 ≤ c.toNat := h2.1
      have h4 : c.toNat ≤ 90 := h2.2
      generalize c.toNat = n at h3 h4
      interval_cases n <;> decide
    · simp only [h2, if_false]
      exact hc
  · simp only [h1, if_false]
    exact htable c (by omega)

/-- C20: `clean_term` keeps only the last slash-separated segment of a token: for a non-empty
`v` without slash, `clean_term(u + "/" + v) = clean_term(v)`.  The Unicode case table is a
parameter of the model; the hypothesis on it states the fact used: lower-casing a non-ASCII
rune never yields a slash. -/
theorem clean_term_last_segment (caseTable : Char → Char)
    (htable : ∀ r : Char, 127 < r.toNat → caseTable r ≠ '/')
    (u v : String) (hne : v ≠ "") (hns : '/' ∉ v.toList) :
    clean_term caseTable (u ++ "/" ++ v) = clean_term caseTable v := by
  have hv : v.toList ≠ [] := by
    intro e
    apply hne
    cases v
    simp_all
  have hlv : strings.ToLower caseTable v.toList ≠ [] := by
    unfold strings.ToLower
    simpa using hv
  have hlns : '/' ∉ strings.ToLower caseTable v.toList := by
    unfold strings.ToLower
    intro hmem
    obtain ⟨c, hc, hcs⟩ := List.mem_map.1 hmem
    exact unicode_ToLower_ne_slash caseTable htable c (fun e => hns (e ▸ hc)) hcs
  have hsplit : strings.ToLower caseTable (u ++ "/" ++ v).toList =
      strings.ToLower caseTable u.toList ++ '/' :: strings.ToLower caseTable v.toList := by
    unfold strings.ToLower
    have : unicode.ToLower caseTable '/' = '/' := by
      unfold unicode.ToLower
      rw [if_pos (by decide), if_neg (by decide)]
    simp [String.toList, this]
  have hbase : path.Base (strings.ToLower caseTable (u ++ "/" ++ v).toList) =
      path.Base (strings.ToLower caseTable v.toList) := by
    rw [hsplit, Base_last_segment _ _ hlv hlns, Base_segment _ hlv hlns]
  unfold clean_term
  simp only [hbase]

theorem clean_term_last_segment_witness :
    (∀ r : Char, 127 < r.toNat → plainTable r ≠ '/') ∧ "Cat" ≠ "" ∧ '/' ∉ "Cat".toList ∧
      clean_term plainTable ("usr/share" ++ "/" ++ "Cat") = clean_term plainTable "Cat" :=
  ⟨fun r hr e => by
      have : r.toNat = 47 := by rw [show r = '/' from e]; rfl
      omega,
    by decide, by decide,
    clean_term_last_segment plainTable
      (fun r hr e => by
        have : r.toNat = 47 := by rw [show r = '/' from e]; rfl
        omega)
      "usr/share" "Cat" (by decide) (by decide)⟩

/-! ## What `DocWordCount` holds -/

theorem card_new_terms_cons (tm : TermMap) (t : String) (d : Int) (rest : List String) :
    ((t :: rest).filter (fun x => decide (mapGet tm x = none))).toFinset.card =
      (if mapGet tm t = none then 1 else 0) +
        (rest.filter (fun x => decide (mapGet (add_term tm t d).1 x = none))).toFinset.card := by
  have hfilter : rest.filter (fun x => decide (mapGet (add_term tm t d).1 x = none)) =
      rest.filter (fun x => decide (t ≠ x ∧ mapGet tm x = none)) := by
    apply List.filter_congr
    intro x _
    simp only [mapGet_add_term_eq_none]
  rw [hfilter]
  by_cases hnew : mapGet tm t = none
  · have hset : (rest.filter (fun x => decide (t ≠ x ∧ mapGet tm x = none))).toFinset =
        (rest.filter (fun x => decide (mapGet tm x = none))).toFinset.erase t := by
      ext x
      simp only [List.mem_toFinset, List.mem_filter, decide_eq_true_eq, Finset.mem_erase]
      constructor
      · rintro ⟨h1, h2, h3⟩
        exact ⟨fun e => h2 e.symm, h1, h3⟩
      · rintro ⟨h1, h2, h3⟩
        exact ⟨h2, fun e => h1 e.symm, h3⟩
    rw [List.filter_cons_of_pos (by simpa using hnew), List.toFinset_cons, hset]
    simp only [hnew, if_true]
    by_cases hmem : t ∈ (rest.filter (fun x => decide (mapGet tm x = none))).toFinset
    · rw [Finset.insert_eq_of_mem hmem, Finset.card_erase_of_mem hmem]
      have := Finset.card_pos.2 ⟨t, hmem⟩
      omega
    · rw [Finset.card_insert_of_not_mem hmem, Finset.erase_eq_of_not_mem hmem]
      omega
  · have hsame : rest.filter (fun x => decide (t ≠ x ∧ mapGet tm x = none)) =
        rest.filter (fun x => decide (mapGet tm x = none)) := by
      apply List.filter_congr
      intro x _
      by_cases hx : mapGet tm x = none
      · have : t ≠ x := fun e => hnew (e ▸ hx)
        simp [hx, this]
      · simp [hx]
    rw [List.filter_cons_of_neg (by simpa using hnew), hsame]
    simp [hnew]

theorem term_count_foldl (caseTable : Char → Char) (words : List String) (docid : Int)
    (acc : TermMap × Int) :
    (words.foldl
      (fun (acc : TermMap × Int) (w : String) =>
        let term := String.mk (strings.ToLower caseTable w.toList)
        let cterm := clean_term caseTable term
        let a := add_term acc.1 cterm docid
        (a.1, acc.2 + a.2)) acc).2
      = acc.2 + (((words.map (normalize caseTable)).filter
          (fun x => decide (mapGet acc.1 x = none))).toFinset.card : Int) := by
  induction words generalizing acc with
  | nil => simp
  | cons w rest ih =>
    simp only [List.foldl_cons, List.map_cons]
    rw [ih, card_new_terms_cons acc.1 (normalize caseTable w) docid]
    simp only [add_term_snd, normalize]
    by_cases hnew : mapGet acc.1
        (clean_term caseTable (String.mk (strings.ToLower caseTable w.toList))) = none
    · simp only [hnew, if_true]
      push_cast
      ring
    · simp only [hnew, if_false]
      push_cast
      ring

/-- After `add_terms_to_dictionary(docid)`, `DocWordCount[docid]` is the number of distinct
normalised terms of the document that the index did not hold before the call. -/
theorem doc_word_count_value (caseTable : Char → Char) (words : List String) (tm : TermMap)
    (dwc : DocWordCount) (docid : Int) :
    mapGet (add_terms_to_dictionary caseTable words tm dwc docid).2 docid =
      some (((words.map (normalize caseTable)).filter
        (fun x => decide (mapGet tm x = none))).toFinset.card : Int) := by
  unfold add_terms_to_dictionary
  simp only [mapGet_mapSet_self]
  rw [term_count_foldl caseTable words docid (tm, 0)]
  simp

end Ranking
